import Mathlib

/-!
Verification development for the FacebookApiPolAdsCollector core: the ad
similarity clusterer (ad_deduplication/ad_deduper.py) and the creative
retrieval pipeline (fb_ad_creative_retriever.py), embedded shallowly in
Lean.  Python dicts and sets read from the store are embedded as
association lists; the union-find library (lib.unionfind, not present in
the sources) and the near-neighbour indices (simhash.SimhashIndex,
pybktree.BKTree) are modelled from the specification contracts they are
used through.
-/

/-! ## Bit utilities: Hamming distance on integer fingerprints -/

/-- Fuel-bounded binary digit sum (population count).  Structural in the
fuel so that it evaluates by kernel reduction. -/
def bitCountFuel : Nat → Nat → Nat
  | 0, _ => 0
  | fuel + 1, n => if n = 0 then 0 else n % 2 + bitCountFuel fuel (n / 2)

/-- Population count of a natural number; fuel n suffices since n halves
at every step. -/
def bitCount (n : Nat) : Nat := bitCountFuel n n

/-- Number of differing bits between two fingerprints, as computed by
dhash.get_num_bits_different and the simhash distance: popcount of xor. -/
def get_num_bits_different (a b : Nat) : Nat := bitCount (a ^^^ b)

/-! ## Similarity clusterer (ad_deduplication/ad_deduper.py) -/

/-- BIT_DIFFERENCE_THRESHOLD = 3 from ad_deduper.py. -/
def BIT_DIFFERENCE_THRESHOLD : Nat := 3

/-- A fingerprint snapshot as read from the store: the dict
sim_hash -> set of archive ids, embedded as an association list whose
order is the dict iteration order. -/
abbrev Snapshot := List (Nat × List Nat)

/-- Python min over a nonempty collection of ints ([] is mapped to 0). -/
def listMin : List Nat → Nat
  | [] => 0
  | x :: xs => xs.foldl Nat.min x

/-- itertools.combinations(l, 2): all pairs of elements at distinct
positions, in order. -/
def pairCombos : List Nat → List (Nat × Nat)
  | [] => []
  | x :: xs => xs.map (fun y => (x, y)) ++ pairCombos xs

/-- Concatenation of f over a list (flat map). -/
def flatCat {α β : Type} (f : α → List β) : List α → List β
  | [] => []
  | x :: xs => f x ++ flatCat f xs

/-- The index entries built in both clustering passes: one entry
(min archive id of the set, sim hash) per distinct fingerprint. -/
def indexEntries (m : Snapshot) : List (Nat × Nat) :=
  m.map (fun p => (listMin p.2, p.1))

/-- Modelled from the spec: both near-neighbour structures
(simhash.SimhashIndex.get_near_dups and pybktree.BKTree.find, neither in
the sources) answer a query with exactly the inserted entries whose key is
within Hamming distance K = BIT_DIFFERENCE_THRESHOLD of the probe. -/
def nearDups (entries : List (Nat × Nat)) (h : Nat) : List Nat :=
  (entries.filter
    (fun e => decide (get_num_bits_different e.2 h ≤ BIT_DIFFERENCE_THRESHOLD))).map
    (fun e => e.1)

/-- Text pass query result for one sim hash (a list, possibly with
duplicate archive ids, as returned by the SimhashIndex). -/
def textFound (m : Snapshot) (h : Nat) : List Nat := nearDups (indexEntries m) h

/-- Image pass query result for one sim hash: the BKTree results are
collected into a Python set, so duplicates are removed. -/
def imageFound (m : Snapshot) (h : Nat) : List Nat :=
  (nearDups (indexEntries m) h).dedup

/-- Union calls connecting all archive ids that share one fingerprint
(the inner combinations loop of both passes). -/
def sameHashEdges (m : Snapshot) : List (Nat × Nat) :=
  flatCat (fun p => pairCombos p.2) m

/-- Union calls from the text query loop over all sim hashes. -/
def textQueryEdges (m : Snapshot) : List (Nat × Nat) :=
  flatCat (fun p => pairCombos (textFound m p.1)) m

/-- All union calls performed by _ad_creative_body_text_similarity_clusters. -/
def textEdges (m : Snapshot) : List (Nat × Nat) :=
  sameHashEdges m ++ textQueryEdges m

/-- Union calls from the image query loop over all sim hashes. -/
def imageQueryEdges (m : Snapshot) : List (Nat × Nat) :=
  flatCat (fun p => pairCombos (imageFound m p.1)) m

/-- All union calls performed by _ad_creative_image_similarity_clusters. -/
def imageEdges (m : Snapshot) : List (Nat × Nat) :=
  sameHashEdges m ++ imageQueryEdges m

/-- The component containing a, if any. -/
def compFind (comps : List (List Nat)) (a : Nat) : Option (List Nat) :=
  comps.find? (fun c => decide (a ∈ c))

/-- Modelled from the spec: standard disjoint-set union on the partition
view.  union(a, b) merges the components of a and b, creating singleton
components for arguments not seen before. -/
def ufUnion (comps : List (List Nat)) (a b : Nat) : List (List Nat) :=
  let ca := (compFind comps a).getD [a]
  let cb := (compFind comps b).getD [b]
  if ca = cb then comps.filter (fun c => decide (a ∉ c)) ++ [ca]
  else comps.filter (fun c => decide (a ∉ c) && decide (b ∉ c)) ++ [ca ++ cb]

/-- Modelled from the spec: running a fresh UnionFind through a list of
union calls; components() is the resulting list of components. -/
def runUF (ps : List (Nat × Nat)) : List (List Nat) :=
  ps.foldl (fun comps p => ufUnion comps p.1 p.2) []

/-- a and b lie in one component of the union-find. -/
def sameComp (comps : List (List Nat)) (a b : Nat) : Prop :=
  ∃ c, c ∈ comps ∧ a ∈ c ∧ b ∈ c

/-- Structural invariant of the union-find components: every component is
nonempty and no element lies in two distinct components. -/
def UFInv (comps : List (List Nat)) : Prop :=
  (∀ c ∈ comps, c ≠ []) ∧
    ∀ c ∈ comps, ∀ d ∈ comps, ∀ x : Nat, x ∈ c → x ∈ d → c = d

/-- One undirected union-call edge. -/
def stepRel (ps : List (Nat × Nat)) (x y : Nat) : Prop :=
  (x, y) ∈ ps ∨ (y, x) ∈ ps

/-- x was an argument of some union call. -/
def appearsIn (ps : List (Nat × Nat)) (x : Nat) : Prop :=
  ∃ p, p ∈ ps ∧ (x = p.1 ∨ x = p.2)

/-- x and y appear among the union calls and are joined by a chain of
union-call edges. -/
def connectedIn (ps : List (Nat × Nat)) (x y : Nat) : Prop :=
  appearsIn ps x ∧ appearsIn ps y ∧ Relation.ReflTransGen (stepRel ps) x y

/-- Effect of one union call on a same-component relation. -/
def addEdge (R : Nat → Nat → Prop) (a b x y : Nat) : Prop :=
  R x y ∨ ((x = a ∨ x = b ∨ R x a ∨ R x b) ∧ (y = a ∨ y = b ∨ R y a ∨ R y b))

/-- The record-emitting loop of update_ad_clusters: components are
numbered in iteration order starting from i, and one
(archive_id, ad_cluster_id) record is emitted per member. -/
def numberFrom : Nat → List (List Nat) → List (Nat × Nat)
  | _, [] => []
  | i, c :: cs => c.map (fun x => (x, i)) ++ numberFrom (i + 1) cs

/-- AdClusterRecord list built by update_ad_clusters from components(),
with next_new_cluster_id starting at 0. -/
def numberClusters (comps : List (List Nat)) : List (Nat × Nat) :=
  numberFrom 0 comps

/-- a and b are assigned to one output cluster by a record list. -/
def sameAssignedCluster (recs : List (Nat × Nat)) (a b : Nat) : Prop :=
  ∃ j, (a, j) ∈ recs ∧ (b, j) ∈ recs

/-- The partition (set of sets of archive ids) induced by an assignment
record list, forgetting the cluster numbering. -/
def partitionOfAssignment (recs : List (Nat × Nat)) : Set (Set Nat) :=
  { S | ∃ j, (∃ x, (x, j) ∈ recs) ∧ S = { x | (x, j) ∈ recs } }

/-- The partition carried by a component list. -/
def partitionSet (comps : List (List Nat)) : Set (Set Nat) :=
  { S | ∃ c, c ∈ comps ∧ S = { x | x ∈ c } }

/-- Archive id x carries fingerprint h in snapshot m. -/
def hasFingerprint (m : Snapshot) (x h : Nat) : Prop :=
  ∃ s, (h, s) ∈ m ∧ x ∈ s

/-- Two archive ids carry fingerprints at Hamming distance at most the
threshold. -/
def fingerprintClose (m : Snapshot) (x y : Nat) : Prop :=
  ∃ hx hy, hasFingerprint m x hx ∧ hasFingerprint m y hy ∧
    get_num_bits_different hx hy ≤ BIT_DIFFERENCE_THRESHOLD

/-- Well-formedness of a snapshot read from the store: every fingerprint
maps to a nonempty set of archive ids. -/
def SnapWF (m : Snapshot) : Prop := ∀ p ∈ m, p.2 ≠ []

/-- Local names assigned in the body of update_ad_clusters. -/
def update_ad_clusters_local_names : List String :=
  ["text_clusters_union_find", "text_clusters", "ad_cluster_records",
   "next_new_cluster_id", "component", "cluster_id", "archive_id",
   "db_interface", "image_clusters_union_find", "image_clusters"]

/-- Parameter names of update_ad_clusters. -/
def update_ad_clusters_param_names : List String := ["database_connection"]

/-- Module-level names of ad_deduper.py (imports and definitions). -/
def ad_deduper_module_names : List String :=
  ["collections", "itertools", "logging", "sys", "dhash", "pybktree",
   "simhash", "config_utils", "db_functions", "unionfind",
   "BIT_DIFFERENCE_THRESHOLD", "AdClusterRecord", "ArchiveIDAndSimHash",
   "_ad_creative_body_text_similarity_clusters", "get_num_bits_different",
   "_ad_creative_image_similarity_clusters",
   "_get_lowest_archive_id_cluster_id", "update_ad_clusters", "main"]

/-- Python builtin names referenced in ad_deduper.py. -/
def python_builtin_names : List String := ["int", "min", "str", "len"]

/-- Whether a name resolves at the return statement of update_ad_clusters. -/
def updateAdClustersResolvable (n : String) : Bool :=
  update_ad_clusters_local_names.contains n ||
  update_ad_clusters_param_names.contains n ||
  ad_deduper_module_names.contains n ||
  python_builtin_names.contains n

/-- Result of one run of update_ad_clusters: the two record lists written
to the store, and the outcome of the final return statement. -/
structure UpdateAdClustersRun where
  text_cluster_records : List (Nat × Nat)
  image_cluster_records : List (Nat × Nat)
  result : Except String Unit

/-- update_ad_clusters on a text and an image fingerprint snapshot:
cluster and write the text pass, cluster and write the image pass, then
execute the return statement, which names the variable components. -/
def update_ad_clusters (mt mi : Snapshot) : UpdateAdClustersRun :=
  { text_cluster_records := numberClusters (runUF (textEdges mt))
    image_cluster_records := numberClusters (runUF (imageEdges mi))
    result :=
      if updateAdClustersResolvable ("components") then Except.ok ()
      else Except.error ("NameError: name components is not defined") }

/-! ## Paths and blob upload (fb_ad_creative_retriever.py) -/

/-- Python string slice s[x:y]. -/
def strSlice (s : String) (x y : Nat) : String :=
  ((s.toList.drop x).take (y - x)).asString

/-- One step of os.path.join for relative-style components. -/
def osPathJoinAux (path p : String) : String :=
  if p.startsWith ("/") then p
  else if path = "" then p
  else if path.endsWith ("/") then path ++ p
  else path ++ "/" ++ p

/-- os.path.join over a component list. -/
def osPathJoin : List String → String
  | [] => ""
  | p :: ps => ps.foldl osPathJoinAux p

/-- Python range(start, stop, step) for positive step. -/
def rangeStep (start stop step : Nat) : List Nat :=
  List.range' start ((stop - start + step - 1) / step) step

/-- VIDEO_HASH_PATH_DIR_NAME_LENGTH = 4 from fb_ad_creative_retriever.py. -/
def VIDEO_HASH_PATH_DIR_NAME_LENGTH : Nat := 4

/-- Directory components of the video bucket path: the slices
hash[x : x+4] for x in range(0, len(hash) - 4, 4). -/
def videoPathDirs (video_sha256_hash : String) : List String :=
  (rangeStep 0 (video_sha256_hash.length - VIDEO_HASH_PATH_DIR_NAME_LENGTH)
    VIDEO_HASH_PATH_DIR_NAME_LENGTH).map
    (fun x => strSlice video_sha256_hash x (x + VIDEO_HASH_PATH_DIR_NAME_LENGTH))

/-- make_video_sha256_hash_file_path from fb_ad_creative_retriever.py. -/
def make_video_sha256_hash_file_path (video_sha256_hash : String) : String :=
  osPathJoin (videoPathDirs video_sha256_hash ++ [video_sha256_hash ++ ".mp4"])

/-- make_image_hash_file_path from fb_ad_creative_retriever.py: seven
fixed 4-character slices then the file name. -/
def make_image_hash_file_path (image_hash : String) : String :=
  osPathJoin
    [strSlice image_hash 0 4, strSlice image_hash 4 8, strSlice image_hash 8 12,
     strSlice image_hash 12 16, strSlice image_hash 16 20, strSlice image_hash 20 24,
     strSlice image_hash 24 28, image_hash ++ ".jpg"]

/-- A bucket as a path-indexed store of blob contents. -/
abbrev BlobStore := List (String × String)

/-- blob.exists() for a path. -/
def blobExists (store : BlobStore) (path : String) : Bool :=
  (store.find? (fun q => decide (q.1 = path))).isSome

/-- upload_blob from fb_ad_creative_retriever.py: skip the upload when an
object already exists at the path, and return the id of the blob at the
path (modelled by the path).  The triple is (returned id, store after the
call, number of uploads actually performed). -/
def upload_blob (store : BlobStore) (blob_path blob_data : String) :
    String × BlobStore × Nat :=
  if blobExists store blob_path then (blob_path, store, 0)
  else (blob_path, store ++ [(blob_path, blob_data)], 1)

/-! ## Creative retrieval pipeline data model -/

/-- SnapshotFetchStatus from fb_ad_creative_retriever.py. -/
inductive SnapshotFetchStatus where
  | unknown
  | success
  | noContentFound
  | invalidIdError
  | ageRestrictionError
  | noAdCreativesFound
  | intellectualPropertyViolationError
  | snapshotPermanentlyUnavailableError
  deriving DecidableEq, Repr

/-- The integer codes of SnapshotFetchStatus (part of the external
contract). -/
def SnapshotFetchStatus.toNat : SnapshotFetchStatus → Nat
  | .unknown => 0
  | .success => 1
  | .noContentFound => 2
  | .invalidIdError => 3
  | .ageRestrictionError => 4
  | .noAdCreativesFound => 5
  | .intellectualPropertyViolationError => 6
  | .snapshotPermanentlyUnavailableError => 7

/-- An image attached to a creative (url and raw bytes). -/
structure CreativeImage where
  url : String
  binary_data : String
  deriving DecidableEq, Repr

/-- Link attributes of a creative. -/
structure LinkAttributes where
  url : Option String
  caption : Option String
  title : Option String
  description : Option String
  button : Option String
  deriving DecidableEq, Repr

/-- One extracted creative. -/
structure Creative where
  body : Option String
  image : Option CreativeImage
  video_url : Option String
  link_attributes : Option LinkAttributes
  deriving DecidableEq, Repr

/-- The extractor result for one archive id. -/
structure ScreenshotAndCreatives where
  screenshot_binary_data : Option String
  creatives : List Creative
  deriving DecidableEq, Repr

/-- AdSnapshotMetadataRecord from fb_ad_creative_retriever.py. -/
structure AdSnapshotMetadataRecord where
  archive_id : Nat
  snapshot_fetch_time : Nat
  snapshot_fetch_status : SnapshotFetchStatus
  deriving DecidableEq, Repr

/-- DownloadedVideoAttributes from fb_ad_creative_retriever.py. -/
structure DownloadedVideoAttributes where
  video_sha256_hash : String
  video_bucket_path : String
  deriving DecidableEq, Repr

/-- AdCreativeRecordUniqueConstraintAttributes from
fb_ad_creative_retriever.py. -/
structure UniqueAttrs where
  archive_id : Nat
  text_sha256_hash : Option String
  image_sha256_hash : Option String
  video_sha256_hash : Option String
  deriving DecidableEq, Repr

/-- AdCreativeRecord from fb_ad_creative_retriever.py. -/
structure AdCreativeRecord where
  archive_id : Nat
  ad_creative_body : Option String
  ad_creative_body_language : Option String
  ad_creative_link_url : Option String
  ad_creative_link_caption : Option String
  ad_creative_link_title : Option String
  ad_creative_link_description : Option String
  ad_creative_link_button_text : Option String
  text_sha256_hash : Option String
  image_sha256_hash : Option String
  image_downloaded_url : Option String
  image_bucket_path : Option String
  text_sim_hash : Option String
  image_sim_hash : Option String
  video_sha256_hash : Option String
  video_downloaded_url : Option String
  video_bucket_path : Option String
  deriving DecidableEq, Repr

/-- The unique-constraint tuple of an emitted record. -/
def recordUniqueAttrs (r : AdCreativeRecord) : UniqueAttrs :=
  { archive_id := r.archive_id
    text_sha256_hash := r.text_sha256_hash
    image_sha256_hash := r.image_sha256_hash
    video_sha256_hash := r.video_sha256_hash }

/-- The pure hashing and detection collaborators (hashlib, simhash text
fingerprint, dhash, langdetect), abstracted as functions.  imageDhash
returns none when PIL decoding raises OSError; langOf returns none when
langdetect raises. -/
structure HashEnv where
  sha256 : String → String
  textSha256utf32 : String → String
  simhashText : String → Nat
  imageDhash : String → Option String
  langOf : String → Option String

/-- Lowercase hex rendering without 0x, as the percent-x format. -/
def hexOf (n : Nat) : String := String.mk (Nat.toDigits 16 n)

/-- The observability counters of FacebookAdCreativeRetriever touched by
the modelled operations. -/
structure RetrieverStats where
  num_snapshots_processed : Nat
  num_snapshots_fetch_failed : Nat
  num_image_download_success : Nat
  num_image_download_failure : Nat
  num_image_uploade_to_gcs_bucket : Nat
  num_video_download_success : Nat
  num_video_download_failure : Nat
  num_video_uploade_to_gcs_bucket : Nat
  deriving DecidableEq, Repr

/-- The HTTP response for a video url: whether requests raised, the
content-length header (absent, present but unparseable, or an integer),
and the body bytes. -/
structure VideoResponse where
  exc : Bool
  contentLength : Option (Option Nat)
  body : String
  deriving DecidableEq, Repr

/-- DEFAULT_MAX_VIDEO_DOWNLOAD_SIZE from fb_ad_creative_retriever.py. -/
def DEFAULT_MAX_VIDEO_DOWNLOAD_SIZE : Nat := 512000000

/-- TOO_MANY_REQUESTS_SLEEP_TIME from fb_ad_creative_retriever.py. -/
def TOO_MANY_REQUESTS_SLEEP_TIME : Nat := 4 * 60 * 60

/-- download_video from fb_ad_creative_retriever.py, with the HTTP fetch
abstracted into the given response.  Returns the downloaded attributes
(none when the download is refused or fails) and the updated counters;
the video upload of store_video_in_google_bucket is reflected in the
upload counter and the returned bucket path. -/
def download_video (env : HashEnv) (max_video_download_size : Nat)
    (st : RetrieverStats) (resp : VideoResponse) :
    Option DownloadedVideoAttributes × RetrieverStats :=
  if resp.exc then
    (none, { st with num_video_download_failure := st.num_video_download_failure + 1 })
  else
    match resp.contentLength with
    | none => (none, st)
    | some none => (none, st)
    | some (some video_content_len) =>
      if video_content_len > max_video_download_size then
        (none, { st with num_video_download_failure := st.num_video_download_failure + 1 })
      else
        let video_sha256 := env.sha256 resp.body
        (some { video_sha256_hash := video_sha256
                video_bucket_path := make_video_sha256_hash_file_path video_sha256 },
         { st with
            num_video_download_success := st.num_video_download_success + 1
            num_video_uploade_to_gcs_bucket := st.num_video_uploade_to_gcs_bucket + 1 })

/-- The tail of one iteration of the creative loop of
process_fetched_ad_creative_data, after the image fields have been
computed: video download, text fields, unique-constraint dedup, link
attributes, record construction.  Returns the emitted record (none on the
dedup continue), the updated counters and the updated seen set. -/
def creativeTail (env : HashEnv) (max_video_download_size : Nat)
    (vresp : String → VideoResponse) (archive_id : Nat) (c : Creative)
    (image_url image_sha256 image_bucket_path image_dhash : Option String)
    (st : RetrieverStats) (seen : List UniqueAttrs) :
    Option AdCreativeRecord × RetrieverStats × List UniqueAttrs :=
  let vres :=
    match c.video_url with
    | some url => download_video env max_video_download_size st (vresp url)
    | none => (none, st)
  let video_sha256 := vres.1.map (fun a => a.video_sha256_hash)
  let video_bucket_path := vres.1.map (fun a => a.video_bucket_path)
  let st := vres.2
  let text := c.body
  let text_sim_hash := c.body.map (fun t => hexOf (env.simhashText t))
  let text_sha256_hash := c.body.map (fun t => env.textSha256utf32 t)
  let ad_creative_body_language := c.body.bind (fun t => env.langOf t)
  let unique_constraint_attrs : UniqueAttrs :=
    { archive_id := archive_id
      text_sha256_hash := text_sha256_hash
      image_sha256_hash := image_sha256
      video_sha256_hash := video_sha256 }
  if unique_constraint_attrs ∈ seen then (none, st, seen)
  else
    let record : AdCreativeRecord :=
      { archive_id := archive_id
        ad_creative_body := text
        ad_creative_body_language := ad_creative_body_language
        ad_creative_link_url := c.link_attributes.bind (fun l => l.url)
        ad_creative_link_caption := c.link_attributes.bind (fun l => l.caption)
        ad_creative_link_title := c.link_attributes.bind (fun l => l.title)
        ad_creative_link_description := c.link_attributes.bind (fun l => l.description)
        ad_creative_link_button_text := c.link_attributes.bind (fun l => l.button)
        text_sha256_hash := text_sha256_hash
        image_sha256_hash := image_sha256
        image_downloaded_url := image_url
        image_bucket_path := image_bucket_path
        text_sim_hash := text_sim_hash
        image_sim_hash := image_dhash
        video_sha256_hash := video_sha256
        video_downloaded_url := c.video_url
        video_bucket_path := video_bucket_path }
    (some record, st, seen ++ [unique_constraint_attrs])

/-- One iteration of the creative loop of
process_fetched_ad_creative_data: the image branch (with the OSError
continue on decode failure), then the tail. -/
def creativeStep (env : HashEnv) (max_video_download_size : Nat)
    (vresp : String → VideoResponse) (archive_id : Nat) (c : Creative)
    (st : RetrieverStats) (seen : List UniqueAttrs) :
    Option AdCreativeRecord × RetrieverStats × List UniqueAttrs :=
  match c.image with
  | some img =>
    match env.imageDhash img.binary_data with
    | none =>
      (none,
       { st with num_image_download_failure := st.num_image_download_failure + 1 },
       seen)
    | some image_dhash =>
      let st :=
        { st with
            num_image_download_success := st.num_image_download_success + 1
            num_image_uploade_to_gcs_bucket := st.num_image_uploade_to_gcs_bucket + 1 }
      creativeTail env max_video_download_size vresp archive_id c
        (some img.url) (some (env.sha256 img.binary_data))
        (some (make_image_hash_file_path image_dhash)) (some image_dhash) st seen
  | none =>
    creativeTail env max_video_download_size vresp archive_id c
      none none none none st seen

/-- The creative loop of process_fetched_ad_creative_data over a creative
list, threading counters and the seen unique-constraint set. -/
def processCreatives (env : HashEnv) (max_video_download_size : Nat)
    (vresp : String → VideoResponse) (archive_id : Nat) :
    List Creative → RetrieverStats → List UniqueAttrs →
    List AdCreativeRecord × RetrieverStats × List UniqueAttrs
  | [], st, seen => ([], st, seen)
  | c :: rest, st, seen =>
    match creativeStep env max_video_download_size vresp archive_id c st seen with
    | (none, st, seen) => processCreatives env max_video_download_size vresp archive_id rest st seen
    | (some r, st, seen) =>
      let res := processCreatives env max_video_download_size vresp archive_id rest st seen
      (r :: res.1, res.2)

/-- process_fetched_ad_creative_data from fb_ad_creative_retriever.py:
none when the fetched data has no creatives, else the emitted record list
(the seen set starts empty on every call). -/
def process_fetched_ad_creative_data (env : HashEnv)
    (max_video_download_size : Nat) (vresp : String → VideoResponse)
    (archive_id : Nat) (creatives : List Creative) (st : RetrieverStats) :
    Option (List AdCreativeRecord) × RetrieverStats :=
  if creatives.isEmpty then (none, st)
  else
    let res := processCreatives env max_video_download_size vresp archive_id creatives st []
    (some res.1, res.2.1)

/-- The outcome of the extractor call for one archive id inside
retrieve_ad (after the one browser-error retry): either a result object,
or one of the handled exceptions. -/
inductive RetrieveOutcome where
  | ok (sac : ScreenshotAndCreatives)
  | requestException
  | noContentFound
  | ageRestriction
  | intellectualPropertyViolation
  | invalidId
  | permanentlyUnavailable
  deriving DecidableEq, Repr

/-- retrieve_ad from fb_ad_creative_retriever.py: classify the outcome
into a fetch status, emit exactly one metadata record, bump the processed
counter (and the fetch-failed counter on a requests exception). -/
def retrieve_ad (fetch_time : Nat) (archive_id : Nat) (o : RetrieveOutcome)
    (st : RetrieverStats) :
    Option ScreenshotAndCreatives × AdSnapshotMetadataRecord × RetrieverStats :=
  let sac : Option ScreenshotAndCreatives :=
    match o with
    | .ok sac => some sac
    | _ => none
  let status : SnapshotFetchStatus :=
    match o with
    | .ok sac => if sac.creatives.isEmpty then .noAdCreativesFound else .success
    | .requestException => .unknown
    | .noContentFound => .noContentFound
    | .ageRestriction => .ageRestrictionError
    | .intellectualPropertyViolation => .intellectualPropertyViolationError
    | .invalidId => .invalidIdError
    | .permanentlyUnavailable => .snapshotPermanentlyUnavailableError
  let st :=
    match o with
    | .requestException =>
      { st with num_snapshots_fetch_failed := st.num_snapshots_fetch_failed + 1 }
    | _ => st
  (sac,
   { archive_id := archive_id
     snapshot_fetch_time := fetch_time
     snapshot_fetch_status := status },
   { st with num_snapshots_processed := st.num_snapshots_processed + 1 })

/-- process_archive_ids from fb_ad_creative_retriever.py over one chunk,
with the per-id extractor outcomes given: collects the metadata records
(exactly one per archive id) and the creative records to insert.
Screenshot upload is not modelled. -/
def process_archive_ids (env : HashEnv) (max_video_download_size : Nat)
    (vresp : String → VideoResponse) (fetch_time : Nat) :
    List (Nat × RetrieveOutcome) → RetrieverStats →
    List AdSnapshotMetadataRecord × List AdCreativeRecord × RetrieverStats
  | [], st => ([], [], st)
  | (archive_id, o) :: rest, st =>
    let r := retrieve_ad fetch_time archive_id o st
    let meta := r.2.1
    let st := r.2.2
    match r.1 with
    | none =>
      let res := process_archive_ids env max_video_download_size vresp fetch_time rest st
      (meta :: res.1, res.2)
    | some sac =>
      if sac.creatives.isEmpty then
        let res := process_archive_ids env max_video_download_size vresp fetch_time rest st
        (meta :: res.1, res.2)
      else
        let pf := process_fetched_ad_creative_data env max_video_download_size vresp
          archive_id sac.creatives st
        let recs := pf.1.getD []
        let res := process_archive_ids env max_video_download_size vresp fetch_time rest pf.2
        (meta :: res.1, recs ++ res.2.1, res.2.2)

/-- The creatives carried by an outcome. -/
def outcomeCreatives : RetrieveOutcome → List Creative
  | .ok sac => sac.creatives
  | _ => []

/-- Fixed reference counters. -/
def zeroStats : RetrieverStats :=
  { num_snapshots_processed := 0
    num_snapshots_fetch_failed := 0
    num_image_download_success := 0
    num_image_download_failure := 0
    num_image_uploade_to_gcs_bucket := 0
    num_video_download_success := 0
    num_video_download_failure := 0
    num_video_uploade_to_gcs_bucket := 0 }

/-- The creative records one archive id alone contributes (counters
started from the fixed reference counters, seen set empty). -/
def perIdCreativeRecords (env : HashEnv) (max_video_download_size : Nat)
    (vresp : String → VideoResponse) (p : Nat × RetrieveOutcome) :
    List AdCreativeRecord :=
  (processCreatives env max_video_download_size vresp p.1
    (outcomeCreatives p.2) zeroStats []).1

/-- Outcome of processing one chunk inside the batch loop of
retreive_and_store_ad_creatives: success, a rate-limit signal
(TooManyRequestsError or EndBatchCrawlerException, carrying an optional
wait_before_next_batch_seconds attribute), or any other exception. -/
inductive ChunkOutcome where
  | ok
  | rateLimit (suggested : Option Nat)
  | fatal
  deriving DecidableEq, Repr

/-- Observable effects of one iteration of the batch loop. -/
inductive BatchEvent where
  | processedChunk
  | releasedBatch (batch_id : Nat)
  | completedBatch (batch_id : Nat)
  | slackAlert
  | slept (seconds : Nat)
  deriving DecidableEq, Repr

/-- The chunk loop: events for the successfully processed prefix and the
first failing outcome, if any. -/
def runChunksEvents : List ChunkOutcome → List BatchEvent × Option ChunkOutcome
  | [] => ([], none)
  | .ok :: rest =>
    let r := runChunksEvents rest
    (.processedChunk :: r.1, r.2)
  | c :: _ => ([], some c)

/-- One iteration of the batch loop of retreive_and_store_ad_creatives
for a leased batch: on success the batch is marked completed; on any
exception the inner handler releases the batch and re-raises; a
rate-limit signal is then caught by the outer handler, which publishes a
slack alert and sleeps the suggested interval (defaulting to
TOO_MANY_REQUESTS_SLEEP_TIME) before the loop resumes; any other
exception propagates and ends the loop.  The boolean records whether the
lease loop resumes. -/
def batchIteration (batch_id : Nat) (chunks : List ChunkOutcome) :
    List BatchEvent × Bool :=
  let r := runChunksEvents chunks
  match r.2 with
  | none => (r.1 ++ [.completedBatch batch_id], true)
  | some (.rateLimit s) =>
    (r.1 ++ [.releasedBatch batch_id, .slackAlert,
             .slept (s.getD TOO_MANY_REQUESTS_SLEEP_TIME)], true)
  | some _ => (r.1 ++ [.releasedBatch batch_id], false)

/-- The download was refused on header grounds or size grounds (no
request exception). -/
def videoRefused (max_video_download_size : Nat) (resp : VideoResponse) : Prop :=
  resp.exc = false ∧
    (resp.contentLength = none ∨ resp.contentLength = some none ∨
      ∃ n, resp.contentLength = some (some n) ∧ max_video_download_size < n)

/-- The response announces a parseable content length above the cap. -/
def isOversizeB (max_video_download_size : Nat) (resp : VideoResponse) : Bool :=
  match resp.contentLength with
  | some (some n) => decide (max_video_download_size < n)
  | _ => false

/-- A fixed concrete hashing environment for witnesses. -/
def trivialEnv : HashEnv :=
  { sha256 := fun s => s
    textSha256utf32 := fun s => s
    simhashText := fun _ => 0
    imageDhash := fun s => some s
    langOf := fun _ => none }

/-- A fixed concrete video response table for witnesses: every url gets a
response announcing a ten-gigabyte content length. -/
def oversizeVresp : String → VideoResponse :=
  fun _ => { exc := false, contentLength := some (some 10000000000), body := "v" }

/-! ## Helper lemmas: lists, combinations, Hamming distance -/

theorem bitCount_zero : bitCount 0 = 0 := rfl

theorem get_num_bits_different_self (h : Nat) : get_num_bits_different h h = 0 := by
  unfold get_num_bits_different
  rw [Nat.xor_self]
  rfl

theorem get_num_bits_different_comm (a b : Nat) :
    get_num_bits_different a b = get_num_bits_different b a := by
  unfold get_num_bits_different
  rw [Nat.xor_comm]

theorem foldl_min_mem (ys : List Nat) :
    ∀ a : Nat, ys.foldl Nat.min a = a ∨ ys.foldl Nat.min a ∈ ys := by
  induction ys with
  | nil => intro a; left; rfl
  | cons y ys ih =>
    intro a
    have hfold : (y :: ys).foldl Nat.min a = ys.foldl Nat.min (Nat.min a y) := rfl
    rcases ih (Nat.min a y) with h1 | h1
    · rcases Nat.lt_or_ge y a with hlt | hge
      · have hm : Nat.min a y = y := by unfold Nat.min; exact min_eq_right (by omega)
        right
        rw [hfold, h1, hm]
        exact List.mem_cons_self _ _
      · have hm : Nat.min a y = a := by unfold Nat.min; exact min_eq_left (by omega)
        left
        rw [hfold, h1, hm]
    · right
      rw [hfold]
      exact List.mem_cons_of_mem _ h1

theorem listMin_mem (l : List Nat) (h : l ≠ []) : listMin l ∈ l := by
  match l with
  | [] => exact absurd rfl h
  | x :: xs =>
    have heq : listMin (x :: xs) = xs.foldl Nat.min x := rfl
    rcases foldl_min_mem xs x with h1 | h1
    · rw [heq, h1]; exact List.mem_cons_self _ _
    · rw [heq]; exact List.mem_cons_of_mem _ h1

theorem mem_flatCat {α β : Type} (f : α → List β) (l : List α) (b : β) :
    b ∈ flatCat f l ↔ ∃ a, a ∈ l ∧ b ∈ f a := by
  induction l with
  | nil => simp [flatCat]
  | cons x xs ih => simp [flatCat, ih]

theorem mem_pairCombos_cons (x : Nat) (xs : List Nat) (u v : Nat) :
    (u, v) ∈ pairCombos (x :: xs) ↔ (u = x ∧ v ∈ xs) ∨ (u, v) ∈ pairCombos xs := by
  simp only [pairCombos, List.mem_append, List.mem_map, Prod.mk.injEq]
  constructor
  · rintro (⟨y, hy, h1, h2⟩ | h)
    · exact Or.inl ⟨h1.symm, h2 ▸ hy⟩
    · exact Or.inr h
  · rintro (⟨h1, h2⟩ | h)
    · exact Or.inl ⟨v, h2, h1.symm, rfl⟩
    · exact Or.inr h

theorem pairCombos_mem_both (l : List Nat) (u v : Nat)
    (h : (u, v) ∈ pairCombos l) : u ∈ l ∧ v ∈ l := by
  induction l with
  | nil => simp [pairCombos] at h
  | cons x xs ih =>
    rw [mem_pairCombos_cons] at h
    rcases h with ⟨hu, hv⟩ | h
    · exact ⟨hu ▸ List.mem_cons_self _ _, List.mem_cons_of_mem _ hv⟩
    · exact ⟨List.mem_cons_of_mem _ (ih h).1, List.mem_cons_of_mem _ (ih h).2⟩

theorem symIn_pairCombos_mp (l : List Nat) (u v : Nat)
    (h : (u, v) ∈ pairCombos l ∨ (v, u) ∈ pairCombos l) :
    (u ≠ v ∧ u ∈ l ∧ v ∈ l) ∨ (u = v ∧ 2 ≤ l.count u) := by
  induction l with
  | nil => simp [pairCombos] at h
  | cons x xs ih =>
    rw [mem_pairCombos_cons, mem_pairCombos_cons] at h
    by_cases huv : u = v
    · subst huv
      right
      refine ⟨rfl, ?_⟩
      have hmono : xs.count u ≤ (x :: xs).count u := by
        by_cases hux : u = x
        · subst hux; rw [List.count_cons_self]; omega
        · rw [List.count_cons_of_ne hux]
      rcases h with (⟨hux, hmem⟩ | hin) | (⟨hux, hmem⟩ | hin)
      · have h1 : 1 ≤ xs.count u := List.count_pos_iff.mpr hmem
        subst hux
        rw [List.count_cons_self]
        omega
      · rcases ih (Or.inl hin) with ⟨hne, _⟩ | ⟨_, h2⟩
        · exact absurd rfl hne
        · omega
      · have h1 : 1 ≤ xs.count u := List.count_pos_iff.mpr hmem
        subst hux
        rw [List.count_cons_self]
        omega
      · rcases ih (Or.inr hin) with ⟨hne, _⟩ | ⟨_, h2⟩
        · exact absurd rfl hne
        · omega
    · left
      refine ⟨huv, ?_⟩
      rcases h with (⟨hux, hmem⟩ | hin) | (⟨hvx, hmem⟩ | hin)
      · exact ⟨hux ▸ List.mem_cons_self _ _, List.mem_cons_of_mem _ hmem⟩
      · rcases ih (Or.inl hin) with ⟨_, h1, h2⟩ | ⟨heq, _⟩
        · exact ⟨List.mem_cons_of_mem _ h1, List.mem_cons_of_mem _ h2⟩
        · exact absurd heq huv
      · exact ⟨List.mem_cons_of_mem _ hmem, hvx ▸ List.mem_cons_self _ _⟩
      · rcases ih (Or.inr hin) with ⟨_, h1, h2⟩ | ⟨heq, _⟩
        · exact ⟨List.mem_cons_of_mem _ h1, List.mem_cons_of_mem _ h2⟩
        · exact absurd heq huv

theorem symIn_pairCombos_mpr_ne (l : List Nat) (u v : Nat)
    (huv : u ≠ v) (hu : u ∈ l) (hv : v ∈ l) :
    (u, v) ∈ pairCombos l ∨ (v, u) ∈ pairCombos l := by
  induction l with
  | nil => simp at hu
  | cons x xs ih =>
    rw [mem_pairCombos_cons, mem_pairCombos_cons]
    rcases List.mem_cons.mp hu with hux | hux
    · rcases List.mem_cons.mp hv with hvx | hvx
      · exact absurd (hux.trans hvx.symm) huv
      · exact Or.inl (Or.inl ⟨hux, hvx⟩)
    · rcases List.mem_cons.mp hv with hvx | hvx
      · exact Or.inr (Or.inl ⟨hvx, hux⟩)
      · rcases ih hux hvx with h | h
        · exact Or.inl (Or.inr h)
        · exact Or.inr (Or.inr h)

theorem symIn_pairCombos_mpr_dup (l : List Nat) (u : Nat)
    (h2 : 2 ≤ l.count u) :
    (u, u) ∈ pairCombos l ∨ (u, u) ∈ pairCombos l := by
  induction l with
  | nil => simp at h2
  | cons x xs ih =>
    rw [mem_pairCombos_cons]
    left
    by_cases hux : u = x
    · subst hux
      rw [List.count_cons_self] at h2
      have h1 : 1 ≤ xs.count u := by omega
      exact Or.inl ⟨rfl, List.count_pos_iff.mp h1⟩
    · rw [List.count_cons_of_ne hux] at h2
      rcases ih h2 with h | h
      · exact Or.inr h
      · exact Or.inr h

/-- Characterization of the symmetrized membership in combinations(l, 2),
in terms of membership and multiplicity only. -/
theorem symIn_pairCombos (l : List Nat) (u v : Nat) :
    ((u, v) ∈ pairCombos l ∨ (v, u) ∈ pairCombos l) ↔
      ((u ≠ v ∧ u ∈ l ∧ v ∈ l) ∨ (u = v ∧ 2 ≤ l.count u)) := by
  constructor
  · exact symIn_pairCombos_mp l u v
  · rintro (⟨huv, hu, hv⟩ | ⟨huv, h2⟩)
    · exact symIn_pairCombos_mpr_ne l u v huv hu hv
    · subst huv
      exact symIn_pairCombos_mpr_dup l u h2

/-- Characterization of being an endpoint of some pair in
combinations(l, 2). -/
theorem endpoint_pairCombos (l : List Nat) (z : Nat) :
    (∃ pr, pr ∈ pairCombos l ∧ (z = pr.1 ∨ z = pr.2)) ↔ (z ∈ l ∧ 2 ≤ l.length) := by
  constructor
  · rintro ⟨⟨u, v⟩, hmem, hz⟩
    have hboth := pairCombos_mem_both l u v hmem
    have hzl : z ∈ l := by
      rcases hz with hz | hz
      · exact hz ▸ hboth.1
      · exact hz ▸ hboth.2
    refine ⟨hzl, ?_⟩
    rcases symIn_pairCombos_mp l u v (Or.inl hmem) with ⟨hne, hu, hv⟩ | ⟨heq, h2⟩
    · by_contra hlen
      push_neg at hlen
      interval_cases hl : l.length
      · rw [List.length_eq_zero] at hl; subst hl; simp at hu
      · obtain ⟨w, hw⟩ := List.length_eq_one.mp hl
        subst hw
        simp at hu hv
        exact hne (hu.trans hv.symm)
    · have := List.count_le_length u l
      omega
  · rintro ⟨hmem, hlen⟩
    by_cases hdup : 2 ≤ l.count z
    · rcases symIn_pairCombos_mpr_dup l z hdup with h | h
      · exact ⟨(z, z), h, Or.inl rfl⟩
      · exact ⟨(z, z), h, Or.inl rfl⟩
    · have : ∃ w, w ∈ l ∧ w ≠ z := by
        by_contra hall
        push_neg at hall
        have hcnt : l.count z = l.length := by
          rw [List.count_eq_length]
          intro w hw
          exact (hall w hw).symm
        omega
      obtain ⟨w, hwl, hwz⟩ := this
      rcases symIn_pairCombos_mpr_ne l z w (fun h => hwz h.symm) hmem hwl with h | h
      · exact ⟨(z, w), h, Or.inl rfl⟩
      · exact ⟨(w, z), h, Or.inr rfl⟩

/-! ## Union-find correctness -/

theorem sameComp_symm {comps : List (List Nat)} {a b : Nat}
    (h : sameComp comps a b) : sameComp comps b a := by
  obtain ⟨c, hc, ha, hb⟩ := h
  exact ⟨c, hc, hb, ha⟩

theorem compFind_some {comps : List (List Nat)} {a : Nat} {c : List Nat}
    (h : compFind comps a = some c) : c ∈ comps ∧ a ∈ c := by
  refine ⟨List.mem_of_find?_eq_some h, ?_⟩
  have := List.find?_some h
  exact of_decide_eq_true this

theorem compFind_none {comps : List (List Nat)} {a : Nat}
    (h : compFind comps a = none) : ∀ c ∈ comps, a ∉ c := by
  intro c hc
  have := List.find?_eq_none.mp h c hc
  simpa using this

/-- Membership in the merge source of a: its component, or the fresh
singleton. -/
theorem mem_caList {comps : List (List Nat)} (hinv : UFInv comps) (a z : Nat) :
    z ∈ (compFind comps a).getD [a] ↔ (z = a ∨ sameComp comps z a) := by
  rcases hca : compFind comps a with _ | c
  · simp only [Option.getD_none]
    constructor
    · intro hz
      left
      simpa using hz
    · rintro (rfl | ⟨c, hc, _, hac⟩)
      · exact List.mem_cons_self _ _
      · exact absurd hac (compFind_none hca c hc)
  · obtain ⟨hcmem, hac⟩ := compFind_some hca
    simp only [Option.getD_some]
    constructor
    · intro hz
      right
      exact ⟨c, hcmem, hz, hac⟩
    · rintro (rfl | ⟨d, hd, hzd, had⟩)
      · exact hac
      · rwa [hinv.2 d hd c hcmem a had hac] at hzd

theorem UFInv_nil : UFInv [] := by
  constructor
  · intro c hc; simp at hc
  · intro c hc; simp at hc

theorem UFInv_ufUnion {comps : List (List Nat)} (hinv : UFInv comps)
    (a b : Nat) : UFInv (ufUnion comps a b) := by
  have hca := mem_caList hinv a
  have hcb := mem_caList hinv b
  have hcaNe : (compFind comps a).getD [a] ≠ [] := by
    rcases h : compFind comps a with _ | c
    · simp
    · simpa using hinv.1 c (compFind_some h).1
  have hcbNe : (compFind comps b).getD [b] ≠ [] := by
    rcases h : compFind comps b with _ | c
    · simp
    · simpa using hinv.1 c (compFind_some h).1
  simp only [ufUnion]
  split
  case isTrue heq =>
    constructor
    · intro c hc
      rcases List.mem_append.mp hc with hc | hc
      · exact hinv.1 c (List.mem_of_mem_filter hc)
      · simp at hc
        subst hc
        exact hcaNe
    · intro c hc d hd x hxc hxd
      rcases List.mem_append.mp hc with hc | hc <;>
        rcases List.mem_append.mp hd with hd | hd
      · have hc' := List.mem_filter.mp hc
        have hd' := List.mem_filter.mp hd
        exact hinv.2 c hc'.1 d hd'.1 x hxc hxd
      · exfalso
        simp at hd
        subst hd
        have hc' := List.mem_filter.mp hc
        have hanotc : a ∉ c := by simpa using hc'.2
        rcases (hca x).mp hxd with rfl | hsame
        · rcases (hca x).mp ((hca x).mpr (Or.inl rfl)) with _ | _
          · exact hanotc hxc
          · exact hanotc hxc
        · obtain ⟨e, he, hxe, hae⟩ := hsame
          have := hinv.2 c hc'.1 e he x hxc hxe
          subst this
          exact hanotc hae
      · exfalso
        simp at hc
        subst hc
        have hd' := List.mem_filter.mp hd
        have hanotd : a ∉ d := by simpa using hd'.2
        rcases (hca x).mp hxc with rfl | hsame
        · exact hanotd hxd
        · obtain ⟨e, he, hxe, hae⟩ := hsame
          have := hinv.2 d hd'.1 e he x hxd hxe
          subst this
          exact hanotd hae
      · simp at hc hd
        rw [hc, hd]
  case isFalse hne =>
    constructor
    · intro c hc
      rcases List.mem_append.mp hc with hc | hc
      · exact hinv.1 c (List.mem_of_mem_filter hc)
      · simp at hc
        subst hc
        intro hnil
        rcases List.append_eq_nil.mp hnil with ⟨h1, _⟩
        exact hcaNe h1
    · intro c hc d hd x hxc hxd
      rcases List.mem_append.mp hc with hc | hc <;>
        rcases List.mem_append.mp hd with hd | hd
      · have hc' := List.mem_filter.mp hc
        have hd' := List.mem_filter.mp hd
        exact hinv.2 c hc'.1 d hd'.1 x hxc hxd
      · exfalso
        simp at hd
        subst hd
        have hc' := List.mem_filter.mp hc
        have hnotc : a ∉ c ∧ b ∉ c := by
          have := hc'.2
          simp at this
          exact this
        rcases List.mem_append.mp hxd with hxca | hxcb
        · rcases (hca x).mp hxca with rfl | hsame
          · exact hnotc.1 hxc
          · obtain ⟨e, he, hxe, hae⟩ := hsame
            have := hinv.2 c hc'.1 e he x hxc hxe
            subst this
            exact hnotc.1 hae
        · rcases (hcb x).mp hxcb with rfl | hsame
          · exact hnotc.2 hxc
          · obtain ⟨e, he, hxe, hbe⟩ := hsame
            have := hinv.2 c hc'.1 e he x hxc hxe
            subst this
            exact hnotc.2 hbe
      · exfalso
        simp at hc
        subst hc
        have hd' := List.mem_filter.mp hd
        have hnotd : a ∉ d ∧ b ∉ d := by
          have := hd'.2
          simp at this
          exact this
        rcases List.mem_append.mp hxc with hxca | hxcb
        · rcases (hca x).mp hxca with rfl | hsame
          · exact hnotd.1 hxd
          · obtain ⟨e, he, hxe, hae⟩ := hsame
            have := hinv.2 d hd'.1 e he x hxd hxe
            subst this
            exact hnotd.1 hae
        · rcases (hcb x).mp hxcb with rfl | hsame
          · exact hnotd.2 hxd
          · obtain ⟨e, he, hxe, hbe⟩ := hsame
            have := hinv.2 d hd'.1 e he x hxd hxe
            subst this
            exact hnotd.2 hbe
      · simp at hc hd
        rw [hc, hd]

/-- One union call updates the same-component relation exactly by joining
everything attached to a with everything attached to b. -/
theorem sameComp_ufUnion {comps : List (List Nat)} (hinv : UFInv comps)
    (a b x y : Nat) :
    sameComp (ufUnion comps a b) x y ↔ addEdge (sameComp comps) a b x y := by
  have hca := mem_caList hinv a
  have hcb := mem_caList hinv b
  have hL : ∀ z : Nat,
      (z ∈ (compFind comps a).getD [a] ∨ z ∈ (compFind comps b).getD [b]) ↔
        (z = a ∨ z = b ∨ sameComp comps z a ∨ sameComp comps z b) := by
    intro z
    rw [hca z, hcb z]
    tauto
  simp only [ufUnion]
  split
  case isTrue heq =>
    constructor
    · rintro ⟨c, hc, hxc, hyc⟩
      rcases List.mem_append.mp hc with hc | hc
      · exact Or.inl ⟨c, List.mem_of_mem_filter hc, hxc, hyc⟩
      · simp at hc
        subst hc
        right
        constructor
        · exact (hL x).mp (Or.inl hxc)
        · exact (hL y).mp (Or.inl hyc)
    · rintro (⟨c, hc, hxc, hyc⟩ | ⟨hx, hy⟩)
      · by_cases hac : a ∈ c
        · refine ⟨(compFind comps a).getD [a], ?_, ?_, ?_⟩
          · exact List.mem_append.mpr (Or.inr (List.mem_cons_self _ _))
          · exact (hca x).mpr (Or.inr ⟨c, hc, hxc, hac⟩)
          · exact (hca y).mpr (Or.inr ⟨c, hc, hyc, hac⟩)
        · refine ⟨c, ?_, hxc, hyc⟩
          refine List.mem_append.mpr (Or.inl ?_)
          rw [List.mem_filter]
          exact ⟨hc, by simpa using hac⟩
      · refine ⟨(compFind comps a).getD [a], ?_, ?_, ?_⟩
        · exact List.mem_append.mpr (Or.inr (List.mem_cons_self _ _))
        · rcases (hL x).mpr hx with h | h
          · exact h
          · rwa [heq]
        · rcases (hL y).mpr hy with h | h
          · exact h
          · rwa [heq]
  case isFalse hne =>
    constructor
    · rintro ⟨c, hc, hxc, hyc⟩
      rcases List.mem_append.mp hc with hc | hc
      · exact Or.inl ⟨c, List.mem_of_mem_filter hc, hxc, hyc⟩
      · simp at hc
        subst hc
        right
        constructor
        · exact (hL x).mp (List.mem_append.mp hxc)
        · exact (hL y).mp (List.mem_append.mp hyc)
    · rintro (⟨c, hc, hxc, hyc⟩ | ⟨hx, hy⟩)
      · by_cases hac : a ∈ c
        · refine ⟨(compFind comps a).getD [a] ++ (compFind comps b).getD [b],
            List.mem_append.mpr (Or.inr (List.mem_cons_self _ _)), ?_, ?_⟩
          · exact List.mem_append.mpr (Or.inl ((hca x).mpr (Or.inr ⟨c, hc, hxc, hac⟩)))
          · exact List.mem_append.mpr (Or.inl ((hca y).mpr (Or.inr ⟨c, hc, hyc, hac⟩)))
        · by_cases hbc : b ∈ c
          · refine ⟨(compFind comps a).getD [a] ++ (compFind comps b).getD [b],
              List.mem_append.mpr (Or.inr (List.mem_cons_self _ _)), ?_, ?_⟩
            · exact List.mem_append.mpr (Or.inr ((hcb x).mpr (Or.inr ⟨c, hc, hxc, hbc⟩)))
            · exact List.mem_append.mpr (Or.inr ((hcb y).mpr (Or.inr ⟨c, hc, hyc, hbc⟩)))
          · refine ⟨c, ?_, hxc, hyc⟩
            refine List.mem_append.mpr (Or.inl ?_)
            rw [List.mem_filter]
            refine ⟨hc, ?_⟩
            simp [hac, hbc]
      · refine ⟨(compFind comps a).getD [a] ++ (compFind comps b).getD [b],
          List.mem_append.mpr (Or.inr (List.mem_cons_self _ _)), ?_, ?_⟩
        · exact List.mem_append.mpr ((hL x).mpr hx)
        · exact List.mem_append.mpr ((hL y).mpr hy)

/-! ## Connectivity characterization of the run of union calls -/

theorem stepRel_symm {ps : List (Nat × Nat)} {x y : Nat}
    (h : stepRel ps x y) : stepRel ps y x := h.symm

theorem stepRel_appears {ps : List (Nat × Nat)} {x y : Nat}
    (h : stepRel ps x y) : appearsIn ps x ∧ appearsIn ps y := by
  rcases h with h | h
  · exact ⟨⟨(x, y), h, Or.inl rfl⟩, ⟨(x, y), h, Or.inr rfl⟩⟩
  · exact ⟨⟨(y, x), h, Or.inr rfl⟩, ⟨(y, x), h, Or.inl rfl⟩⟩

theorem rtg_symm_of_symm {α : Type} {r : α → α → Prop}
    (hs : ∀ u v, r u v → r v u) {x y : α}
    (h : Relation.ReflTransGen r x y) : Relation.ReflTransGen r y x := by
  induction h with
  | refl => exact .refl
  | tail _ hstep ih => exact .head (hs _ _ hstep) ih

theorem connectedIn_symm {ps : List (Nat × Nat)} {x y : Nat}
    (h : connectedIn ps x y) : connectedIn ps y x :=
  ⟨h.2.1, h.1, rtg_symm_of_symm (fun _ _ => stepRel_symm) h.2.2⟩

theorem connectedIn_trans {ps : List (Nat × Nat)} {x y z : Nat}
    (h1 : connectedIn ps x y) (h2 : connectedIn ps y z) : connectedIn ps x z :=
  ⟨h1.1, h2.2.1, h1.2.2.trans h2.2.2⟩

theorem appearsIn_concat {ps : List (Nat × Nat)} {e : Nat × Nat} {x : Nat} :
    appearsIn (ps ++ [e]) x ↔ appearsIn ps x ∨ x = e.1 ∨ x = e.2 := by
  constructor
  · rintro ⟨p, hp, hx⟩
    rcases List.mem_append.mp hp with hp | hp
    · exact Or.inl ⟨p, hp, hx⟩
    · simp at hp
      subst hp
      exact Or.inr hx
  · rintro (⟨p, hp, hx⟩ | hx)
    · exact ⟨p, List.mem_append.mpr (Or.inl hp), hx⟩
    · exact ⟨e, List.mem_append.mpr (Or.inr (List.mem_cons_self _ _)), hx⟩

theorem stepRel_concat {ps : List (Nat × Nat)} {a b x y : Nat} :
    stepRel (ps ++ [(a, b)]) x y ↔
      stepRel ps x y ∨ (x = a ∧ y = b) ∨ (x = b ∧ y = a) := by
  unfold stepRel
  simp only [List.mem_append, List.mem_singleton, Prod.mk.injEq]
  tauto

theorem stepRel_mono_concat {ps : List (Nat × Nat)} {e : Nat × Nat} {x y : Nat}
    (h : stepRel ps x y) : stepRel (ps ++ [e]) x y := by
  rcases h with h | h
  · exact Or.inl (List.mem_append.mpr (Or.inl h))
  · exact Or.inr (List.mem_append.mpr (Or.inl h))

theorem connectedIn_mono_concat {ps : List (Nat × Nat)} {e : Nat × Nat} {x y : Nat}
    (h : connectedIn ps x y) : connectedIn (ps ++ [e]) x y := by
  refine ⟨appearsIn_concat.mpr (Or.inl h.1), appearsIn_concat.mpr (Or.inl h.2.1), ?_⟩
  exact Relation.ReflTransGen.mono (fun _ _ => stepRel_mono_concat) h.2.2

/-- Adding one union call to the union-call list changes connectivity
exactly as addEdge describes. -/
theorem connectedIn_concat (ps : List (Nat × Nat)) (a b x y : Nat) :
    connectedIn (ps ++ [(a, b)]) x y ↔ addEdge (connectedIn ps) a b x y := by
  have hedge : stepRel (ps ++ [(a, b)]) a b := by
    exact Or.inl (List.mem_append.mpr (Or.inr (List.mem_cons_self _ _)))
  have happA : appearsIn (ps ++ [(a, b)]) a := by
    rw [appearsIn_concat]; exact Or.inr (Or.inl rfl)
  have happB : appearsIn (ps ++ [(a, b)]) b := by
    rw [appearsIn_concat]; exact Or.inr (Or.inr rfl)
  have hLside : ∀ z : Nat, (z = a ∨ z = b ∨ connectedIn ps z a ∨ connectedIn ps z b) →
      appearsIn (ps ++ [(a, b)]) z ∧
        (Relation.ReflTransGen (stepRel (ps ++ [(a, b)])) z a ∨
          Relation.ReflTransGen (stepRel (ps ++ [(a, b)])) z b) := by
    rintro z (rfl | rfl | hza | hzb)
    · exact ⟨happA, Or.inl .refl⟩
    · exact ⟨happB, Or.inr .refl⟩
    · have := connectedIn_mono_concat (e := (a, b)) hza
      exact ⟨this.1, Or.inl this.2.2⟩
    · have := connectedIn_mono_concat (e := (a, b)) hzb
      exact ⟨this.1, Or.inr this.2.2⟩
  constructor
  · rintro ⟨happx, happy, hchain⟩
    clear happy
    induction hchain with
    | refl =>
      rcases appearsIn_concat.mp happx with h | h | h
      · exact Or.inl ⟨h, h, .refl⟩
      · exact Or.inr ⟨Or.inl h, Or.inl h⟩
      · exact Or.inr ⟨Or.inr (Or.inl h), Or.inr (Or.inl h)⟩
    | tail hxz hstep ih =>
      rename_i z w
      have hzw := hstep
      rcases stepRel_concat.mp hstep with hold | ⟨rfl, rfl⟩ | ⟨rfl, rfl⟩
      · have happs := stepRel_appears hold
        have hconn_zw : connectedIn ps z w :=
          ⟨happs.1, happs.2, Relation.ReflTransGen.single hold⟩
        rcases ih with hxy | ⟨hLx, hLz⟩
        · exact Or.inl (connectedIn_trans hxy hconn_zw)
        · refine Or.inr ⟨hLx, ?_⟩
          rcases hLz with rfl | rfl | hza | hzb
          · exact Or.inr (Or.inr (Or.inl (connectedIn_symm hconn_zw)))
          · exact Or.inr (Or.inr (Or.inr (connectedIn_symm hconn_zw)))
          · exact Or.inr (Or.inr (Or.inl
              (connectedIn_trans (connectedIn_symm hconn_zw) hza)))
          · exact Or.inr (Or.inr (Or.inr
              (connectedIn_trans (connectedIn_symm hconn_zw) hzb)))
      · refine Or.inr ⟨?_, Or.inr (Or.inl rfl)⟩
        rcases ih with hxa | ⟨hLx, _⟩
        · exact Or.inr (Or.inr (Or.inl hxa))
        · exact hLx
      · refine Or.inr ⟨?_, Or.inl rfl⟩
        rcases ih with hxb | ⟨hLx, _⟩
        · exact Or.inr (Or.inr (Or.inr hxb))
        · exact hLx
  · rintro (hxy | ⟨hLx, hLy⟩)
    · exact connectedIn_mono_concat hxy
    · obtain ⟨happx, hchainx⟩ := hLside x hLx
      obtain ⟨happy, hchainy⟩ := hLside y hLy
      refine ⟨happx, happy, ?_⟩
      have hBA : Relation.ReflTransGen (stepRel (ps ++ [(a, b)])) b a :=
        Relation.ReflTransGen.single (stepRel_symm hedge)
      have hAB : Relation.ReflTransGen (stepRel (ps ++ [(a, b)])) a b :=
        Relation.ReflTransGen.single hedge
      have hrev : ∀ {z : Nat},
          Relation.ReflTransGen (stepRel (ps ++ [(a, b)])) z a ∨
            Relation.ReflTransGen (stepRel (ps ++ [(a, b)])) z b →
          Relation.ReflTransGen (stepRel (ps ++ [(a, b)])) a z ∨
            Relation.ReflTransGen (stepRel (ps ++ [(a, b)])) b z := by
        rintro z (h | h)
        · exact Or.inl (rtg_symm_of_symm (fun _ _ => stepRel_symm) h)
        · exact Or.inr (rtg_symm_of_symm (fun _ _ => stepRel_symm) h)
      rcases hchainx with hx | hx <;> rcases hrev hchainy with hy | hy
      · exact hx.trans hy
      · exact hx.trans (hAB.trans hy)
      · exact hx.trans (hBA.trans hy)
      · exact hx.trans hy

theorem UFInv_foldl (ps : List (Nat × Nat)) :
    ∀ comps, UFInv comps →
      UFInv (ps.foldl (fun comps p => ufUnion comps p.1 p.2) comps) := by
  induction ps with
  | nil => intro comps h; exact h
  | cons p ps ih =>
    intro comps h
    exact ih _ (UFInv_ufUnion h p.1 p.2)

theorem UFInv_runUF (ps : List (Nat × Nat)) : UFInv (runUF ps) :=
  UFInv_foldl ps [] UFInv_nil

theorem runUF_concat (ps : List (Nat × Nat)) (p : Nat × Nat) :
    runUF (ps ++ [p]) = ufUnion (runUF ps) p.1 p.2 := by
  unfold runUF
  rw [List.foldl_append]
  rfl

theorem addEdge_congr {R R' : Nat → Nat → Prop} (h : ∀ u v, R u v ↔ R' u v)
    (a b x y : Nat) : addEdge R a b x y ↔ addEdge R' a b x y := by
  unfold addEdge
  rw [h x y, h x a, h x b, h y a, h y b]

/-- The components of the union-find after all union calls group exactly
the archive ids that appear in some call and are linked by a chain of
calls. -/
theorem sameComp_runUF (ps : List (Nat × Nat)) (x y : Nat) :
    sameComp (runUF ps) x y ↔ connectedIn ps x y := by
  induction ps using List.reverseRecOn generalizing x y with
  | nil =>
    constructor
    · rintro ⟨c, hc, _⟩
      simp [runUF] at hc
    · rintro ⟨⟨p, hp, _⟩, _⟩
      simp at hp
  | append_singleton ps p ih =>
    rw [runUF_concat]
    rw [sameComp_ufUnion (UFInv_runUF ps) p.1 p.2 x y]
    rw [addEdge_congr (fun u v => ih u v) p.1 p.2 x y]
    have := connectedIn_concat ps p.1 p.2 x y
    rw [← this]

/-! ## Cluster records and partitions -/

theorem mem_numberFrom (comps : List (List Nat)) :
    ∀ (i : Nat) (x j : Nat),
      (x, j) ∈ numberFrom i comps ↔
        ∃ k c, comps.get? k = some c ∧ j = i + k ∧ x ∈ c := by
  induction comps with
  | nil => intro i x j; simp [numberFrom]
  | cons c cs ih =>
    intro i x j
    unfold numberFrom
    rw [List.mem_append]
    constructor
    · rintro (h | h)
      · rw [List.mem_map] at h
        obtain ⟨z, hz, heq⟩ := h
        obtain ⟨rfl, rfl⟩ := Prod.mk.injEq .. ▸ heq
        exact ⟨0, c, rfl, by omega, hz⟩
      · obtain ⟨k, d, hget, hj, hx⟩ := (ih (i + 1) x j).mp h
        exact ⟨k + 1, d, hget, by omega, hx⟩
    · rintro ⟨k, d, hget, hj, hx⟩
      match k with
      | 0 =>
        left
        simp at hget
        subst hget
        rw [List.mem_map]
        exact ⟨x, hx, by simp [hj]⟩
      | k + 1 =>
        right
        refine (ih (i + 1) x j).mpr ⟨k, d, hget, by omega, hx⟩

theorem mem_numberClusters (comps : List (List Nat)) (x j : Nat) :
    (x, j) ∈ numberClusters comps ↔ ∃ c, comps.get? j = some c ∧ x ∈ c := by
  unfold numberClusters
  rw [mem_numberFrom comps 0 x j]
  constructor
  · rintro ⟨k, c, hget, hj, hx⟩
    exact ⟨c, by rw [hj]; simpa using hget, hx⟩
  · rintro ⟨c, hget, hx⟩
    exact ⟨j, c, hget, by omega, hx⟩

theorem sameAssignedCluster_numberClusters (comps : List (List Nat)) (a b : Nat) :
    sameAssignedCluster (numberClusters comps) a b ↔ sameComp comps a b := by
  unfold sameAssignedCluster
  constructor
  · rintro ⟨j, ha, hb⟩
    obtain ⟨c, hget, hac⟩ := (mem_numberClusters comps a j).mp ha
    obtain ⟨d, hget', hbd⟩ := (mem_numberClusters comps b j).mp hb
    rw [hget] at hget'
    obtain rfl : c = d := by injection hget'
    exact ⟨c, List.get?_mem hget, hac, hbd⟩
  · rintro ⟨c, hc, hac, hbc⟩
    obtain ⟨j, hget⟩ := List.get?_of_mem hc
    exact ⟨j, (mem_numberClusters comps a j).mpr ⟨c, hget, hac⟩,
      (mem_numberClusters comps b j).mpr ⟨c, hget, hbc⟩⟩

theorem partitionOfAssignment_numberClusters (comps : List (List Nat))
    (hne : ∀ c ∈ comps, c ≠ []) :
    partitionOfAssignment (numberClusters comps) = partitionSet comps := by
  unfold partitionOfAssignment partitionSet
  ext S
  simp only [Set.mem_setOf_eq]
  constructor
  · rintro ⟨j, ⟨x, hx⟩, rfl⟩
    obtain ⟨c, hget, _⟩ := (mem_numberClusters comps x j).mp hx
    refine ⟨c, List.get?_mem hget, ?_⟩
    ext z
    simp only [Set.mem_setOf_eq]
    rw [mem_numberClusters]
    constructor
    · rintro ⟨d, hget', hzd⟩
      rw [hget] at hget'
      obtain rfl : c = d := by injection hget'
      exact hzd
    · intro hz
      exact ⟨c, hget, hz⟩
  · rintro ⟨c, hc, rfl⟩
    obtain ⟨j, hget⟩ := List.get?_of_mem hc
    obtain ⟨w, hw⟩ := List.exists_mem_of_ne_nil c (hne c hc)
    refine ⟨j, ⟨w, (mem_numberClusters comps w j).mpr ⟨c, hget, hw⟩⟩, ?_⟩
    ext z
    simp only [Set.mem_setOf_eq]
    rw [mem_numberClusters]
    constructor
    · intro hz
      exact ⟨c, hget, hz⟩
    · rintro ⟨d, hget', hzd⟩
      rw [hget] at hget'
      obtain rfl : c = d := by injection hget'
      exact hzd

/-- Two component lists satisfying the invariant and inducing the same
same-component relation carry the same partition. -/
theorem partitionSet_eq_of_sameComp {comps1 comps2 : List (List Nat)}
    (h1 : UFInv comps1) (h2 : UFInv comps2)
    (h : ∀ x y, sameComp comps1 x y ↔ sameComp comps2 x y) :
    partitionSet comps1 = partitionSet comps2 := by
  have key : ∀ (d1 d2 : List (List Nat)), UFInv d1 → UFInv d2 →
      (∀ x y, sameComp d1 x y ↔ sameComp d2 x y) →
      ∀ S, S ∈ partitionSet d1 → S ∈ partitionSet d2 := by
    rintro d1 d2 hi1 hi2 hsc S ⟨c, hc, rfl⟩
    obtain ⟨w, hw⟩ := List.exists_mem_of_ne_nil c (hi1.1 c hc)
    have hww : sameComp d2 w w := (hsc w w).mp ⟨c, hc, hw, hw⟩
    obtain ⟨c2, hc2, hwc2, _⟩ := hww
    refine ⟨c2, hc2, ?_⟩
    ext z
    simp only [Set.mem_setOf_eq]
    constructor
    · intro hz
      have : sameComp d2 w z := (hsc w z).mp ⟨c, hc, hw, hz⟩
      obtain ⟨d, hd, hwd, hzd⟩ := this
      rwa [hi2.2 d hd c2 hc2 w hwd hwc2] at hzd
    · intro hz
      have : sameComp d1 w z := (hsc w z).mpr ⟨c2, hc2, hwc2, hz⟩
      obtain ⟨d, hd, hwd, hzd⟩ := this
      rwa [hi1.2 d hd c hc w hwd hw] at hzd
  ext S
  constructor
  · exact key comps1 comps2 h1 h2 h S
  · exact key comps2 comps1 h2 h1 (fun x y => (h x y).symm) S

/-! ## Edges generated from a snapshot -/

theorem mem_textFound (m : Snapshot) (h x : Nat) :
    x ∈ textFound m h ↔
      ∃ p, p ∈ m ∧ get_num_bits_different p.1 h ≤ BIT_DIFFERENCE_THRESHOLD ∧
        x = listMin p.2 := by
  unfold textFound nearDups indexEntries
  simp only [List.mem_map, List.mem_filter, decide_eq_true_eq]
  constructor
  · rintro ⟨e, ⟨⟨p, hp, rfl⟩, hdist⟩, rfl⟩
    exact ⟨p, hp, hdist, rfl⟩
  · rintro ⟨p, hp, hdist, rfl⟩
    exact ⟨(listMin p.2, p.1), ⟨⟨p, hp, rfl⟩, hdist⟩, rfl⟩

theorem mem_imageFound (m : Snapshot) (h x : Nat) :
    x ∈ imageFound m h ↔ x ∈ textFound m h := by
  unfold imageFound textFound
  exact List.mem_dedup

theorem fingerprintClose_symm {m : Snapshot} {x y : Nat}
    (h : fingerprintClose m x y) : fingerprintClose m y x := by
  obtain ⟨hx, hy, hhx, hhy, hd⟩ := h
  exact ⟨hy, hx, hhy, hhx, by rwa [get_num_bits_different_comm]⟩

theorem stepRel_append {A B : List (Nat × Nat)} {x y : Nat} :
    stepRel (A ++ B) x y ↔ stepRel A x y ∨ stepRel B x y := by
  unfold stepRel
  simp only [List.mem_append]
  tauto

theorem appearsIn_append {A B : List (Nat × Nat)} {x : Nat} :
    appearsIn (A ++ B) x ↔ appearsIn A x ∨ appearsIn B x := by
  unfold appearsIn
  constructor
  · rintro ⟨p, hp, hx⟩
    rcases List.mem_append.mp hp with hp | hp
    · exact Or.inl ⟨p, hp, hx⟩
    · exact Or.inr ⟨p, hp, hx⟩
  · rintro (⟨p, hp, hx⟩ | ⟨p, hp, hx⟩)
    · exact ⟨p, List.mem_append.mpr (Or.inl hp), hx⟩
    · exact ⟨p, List.mem_append.mpr (Or.inr hp), hx⟩

theorem stepRel_flatCat {α : Type} (f : α → List (Nat × Nat)) (l : List α)
    (x y : Nat) :
    stepRel (flatCat f l) x y ↔
      ∃ a, a ∈ l ∧ ((x, y) ∈ f a ∨ (y, x) ∈ f a) := by
  unfold stepRel
  constructor
  · rintro (h | h)
    · obtain ⟨a, ha, hm⟩ := (mem_flatCat f l (x, y)).mp h
      exact ⟨a, ha, Or.inl hm⟩
    · obtain ⟨a, ha, hm⟩ := (mem_flatCat f l (y, x)).mp h
      exact ⟨a, ha, Or.inr hm⟩
  · rintro ⟨a, ha, hm | hm⟩
    · exact Or.inl ((mem_flatCat f l (x, y)).mpr ⟨a, ha, hm⟩)
    · exact Or.inr ((mem_flatCat f l (y, x)).mpr ⟨a, ha, hm⟩)

theorem appearsIn_flatCat {α : Type} (f : α → List (Nat × Nat)) (l : List α)
    (x : Nat) :
    appearsIn (flatCat f l) x ↔
      ∃ a, a ∈ l ∧ ∃ pr, pr ∈ f a ∧ (x = pr.1 ∨ x = pr.2) := by
  unfold appearsIn
  constructor
  · rintro ⟨p, hp, hx⟩
    obtain ⟨a, ha, hpa⟩ := (mem_flatCat f l p).mp hp
    exact ⟨a, ha, p, hpa, hx⟩
  · rintro ⟨a, ha, pr, hpr, hx⟩
    exact ⟨pr, (mem_flatCat f l pr).mpr ⟨a, ha, hpr⟩, hx⟩

/-- Every union-call edge of a clustering pass is bridged by a chain of
at most two fingerprint-closeness steps, provided the query results are
minima of sets within the distance threshold of the queried hash. -/
theorem edge_to_close_chain (m : Snapshot) (hwf : SnapWF m)
    (F : Nat → List Nat)
    (hF : ∀ h x, x ∈ F h →
      ∃ p, p ∈ m ∧ get_num_bits_different p.1 h ≤ BIT_DIFFERENCE_THRESHOLD ∧
        x = listMin p.2)
    (x y : Nat)
    (hxy : (x, y) ∈ sameHashEdges m ++ flatCat (fun p => pairCombos (F p.1)) m) :
    Relation.ReflTransGen (fingerprintClose m) x y := by
  rcases List.mem_append.mp hxy with hin | hin
  · obtain ⟨p, hp, hpc⟩ := (mem_flatCat _ m (x, y)).mp hin
    obtain ⟨hxm, hym⟩ := pairCombos_mem_both _ _ _ hpc
    refine Relation.ReflTransGen.single ?_
    exact ⟨p.1, p.1, ⟨p.2, by simpa using hp, hxm⟩, ⟨p.2, by simpa using hp, hym⟩,
      by rw [get_num_bits_different_self]; omega⟩
  · obtain ⟨p, hp, hpc⟩ := (mem_flatCat _ m (x, y)).mp hin
    obtain ⟨hxf, hyf⟩ := pairCombos_mem_both _ _ _ hpc
    obtain ⟨px, hpx, hdx, rfl⟩ := hF p.1 x hxf
    obtain ⟨py, hpy, hdy, rfl⟩ := hF p.1 y hyf
    have hw : listMin p.2 ∈ p.2 := listMin_mem p.2 (hwf p hp)
    have hx' : listMin px.2 ∈ px.2 := listMin_mem px.2 (hwf px hpx)
    have hy' : listMin py.2 ∈ py.2 := listMin_mem py.2 (hwf py hpy)
    have step1 : fingerprintClose m (listMin px.2) (listMin p.2) :=
      ⟨px.1, p.1, ⟨px.2, by simpa using hpx, hx'⟩, ⟨p.2, by simpa using hp, hw⟩, hdx⟩
    have step2 : fingerprintClose m (listMin p.2) (listMin py.2) :=
      ⟨p.1, py.1, ⟨p.2, by simpa using hp, hw⟩, ⟨py.2, by simpa using hpy, hy'⟩,
        by rwa [get_num_bits_different_comm]⟩
    exact (Relation.ReflTransGen.single step1).trans (Relation.ReflTransGen.single step2)

theorem connected_to_close_chain (m : Snapshot) (hwf : SnapWF m)
    (F : Nat → List Nat)
    (hF : ∀ h x, x ∈ F h →
      ∃ p, p ∈ m ∧ get_num_bits_different p.1 h ≤ BIT_DIFFERENCE_THRESHOLD ∧
        x = listMin p.2)
    (x y : Nat)
    (hconn : connectedIn (sameHashEdges m ++ flatCat (fun p => pairCombos (F p.1)) m) x y) :
    Relation.ReflTransGen (fingerprintClose m) x y := by
  obtain ⟨-, -, hchain⟩ := hconn
  induction hchain with
  | refl => exact .refl
  | tail hxz hstep ih =>
    refine ih.trans ?_
    rcases hstep with hin | hin
    · exact edge_to_close_chain m hwf F hF _ _ hin
    · exact rtg_symm_of_symm (fun _ _ => fingerprintClose_symm)
        (edge_to_close_chain m hwf F hF _ _ hin)

theorem textFound_spec (m : Snapshot) :
    ∀ h x, x ∈ textFound m h →
      ∃ p, p ∈ m ∧ get_num_bits_different p.1 h ≤ BIT_DIFFERENCE_THRESHOLD ∧
        x = listMin p.2 := by
  intro h x hx
  exact (mem_textFound m h x).mp hx

theorem imageFound_spec (m : Snapshot) :
    ∀ h x, x ∈ imageFound m h →
      ∃ p, p ∈ m ∧ get_num_bits_different p.1 h ≤ BIT_DIFFERENCE_THRESHOLD ∧
        x = listMin p.2 := by
  intro h x hx
  exact (mem_textFound m h x).mp ((mem_imageFound m h x).mp hx)

/-- Claim C1: for every pair (a, b) assigned to the same output text
cluster by update_ad_clusters there is a chain a = x0, x1, ..., xn = b of
archive ids whose adjacent pairs carry text SimHash values at Hamming
distance at most 3, and likewise for every pair in the same output image
cluster with dHash Hamming distance at most 3. -/
theorem cluster_pair_chain_connected (mt mi : Snapshot) (a b : Nat)
    (hwt : SnapWF mt) (hwi : SnapWF mi) :
    (sameAssignedCluster ((update_ad_clusters mt mi).text_cluster_records) a b →
      Relation.ReflTransGen (fingerprintClose mt) a b) ∧
    (sameAssignedCluster ((update_ad_clusters mt mi).image_cluster_records) a b →
      Relation.ReflTransGen (fingerprintClose mi) a b) := by
  constructor
  · intro hsame
    have h1 : sameComp (runUF (textEdges mt)) a b :=
      (sameAssignedCluster_numberClusters (runUF (textEdges mt)) a b).mp hsame
    have h2 := (sameComp_runUF (textEdges mt) a b).mp h1
    exact connected_to_close_chain mt hwt (textFound mt) (textFound_spec mt) a b h2
  · intro hsame
    have h1 : sameComp (runUF (imageEdges mi)) a b :=
      (sameAssignedCluster_numberClusters (runUF (imageEdges mi)) a b).mp hsame
    have h2 := (sameComp_runUF (imageEdges mi) a b).mp h1
    exact connected_to_close_chain mi hwi (imageFound mi) (imageFound_spec mi) a b h2

/-- Witness for claim C1 at a concrete snapshot: archive ids 1 and 2
share the text fingerprint 0, land in one output cluster, and the theorem
yields the closeness chain. -/
theorem cluster_pair_chain_connected_witness :
    SnapWF [(0, [1, 2])] ∧
      Relation.ReflTransGen (fingerprintClose [(0, [1, 2])]) 1 2 := by
  have hwf : SnapWF [(0, [1, 2])] := by unfold SnapWF; decide
  have hwf2 : SnapWF ([] : Snapshot) := by unfold SnapWF; decide
  refine ⟨hwf, ?_⟩
  have hsame : sameAssignedCluster
      ((update_ad_clusters [(0, [1, 2])] []).text_cluster_records) 1 2 :=
    ⟨0, by decide, by decide⟩
  exact (cluster_pair_chain_connected [(0, [1, 2])] [] 1 2 hwf hwf2).1 hsame

/-! ## Invariance of the clustering partition under snapshot reordering -/

theorem perm_textFound {m1 m2 : Snapshot} (hm : m1.Perm m2) (h : Nat) :
    (textFound m1 h).Perm (textFound m2 h) := by
  unfold textFound nearDups indexEntries
  exact ((hm.map _).filter _).map _

theorem perm_imageFound {m1 m2 : Snapshot} (hm : m1.Perm m2) (h : Nat) :
    (imageFound m1 h).Perm (imageFound m2 h) :=
  (perm_textFound hm h).dedup

theorem symIn_pairCombos_perm {l1 l2 : List Nat} (hp : l1.Perm l2) (u v : Nat) :
    ((u, v) ∈ pairCombos l1 ∨ (v, u) ∈ pairCombos l1) ↔
      ((u, v) ∈ pairCombos l2 ∨ (v, u) ∈ pairCombos l2) := by
  rw [symIn_pairCombos, symIn_pairCombos, hp.mem_iff, hp.mem_iff, hp.count_eq]

theorem endpoint_pairCombos_perm {l1 l2 : List Nat} (hp : l1.Perm l2) (z : Nat) :
    (∃ pr, pr ∈ pairCombos l1 ∧ (z = pr.1 ∨ z = pr.2)) ↔
      (∃ pr, pr ∈ pairCombos l2 ∧ (z = pr.1 ∨ z = pr.2)) := by
  rw [endpoint_pairCombos, endpoint_pairCombos, hp.mem_iff, hp.length_eq]

theorem stepRel_queryEdges_perm {m1 m2 : Snapshot} (hm : m1.Perm m2)
    (F1 F2 : Nat → List Nat) (hF : ∀ h, (F1 h).Perm (F2 h)) (x y : Nat) :
    stepRel (flatCat (fun p => pairCombos (F1 p.1)) m1) x y ↔
      stepRel (flatCat (fun p => pairCombos (F2 p.1)) m2) x y := by
  rw [stepRel_flatCat, stepRel_flatCat]
  constructor
  · rintro ⟨p, hp, hpc⟩
    exact ⟨p, hm.mem_iff.mp hp, (symIn_pairCombos_perm (hF p.1) x y).mp hpc⟩
  · rintro ⟨p, hp, hpc⟩
    exact ⟨p, hm.mem_iff.mpr hp, (symIn_pairCombos_perm (hF p.1) x y).mpr hpc⟩

theorem appearsIn_queryEdges_perm {m1 m2 : Snapshot} (hm : m1.Perm m2)
    (F1 F2 : Nat → List Nat) (hF : ∀ h, (F1 h).Perm (F2 h)) (x : Nat) :
    appearsIn (flatCat (fun p => pairCombos (F1 p.1)) m1) x ↔
      appearsIn (flatCat (fun p => pairCombos (F2 p.1)) m2) x := by
  rw [appearsIn_flatCat, appearsIn_flatCat]
  constructor
  · rintro ⟨p, hp, hpr⟩
    exact ⟨p, hm.mem_iff.mp hp, (endpoint_pairCombos_perm (hF p.1) x).mp hpr⟩
  · rintro ⟨p, hp, hpr⟩
    exact ⟨p, hm.mem_iff.mpr hp, (endpoint_pairCombos_perm (hF p.1) x).mpr hpr⟩

theorem stepRel_sameHashEdges_perm {m1 m2 : Snapshot} (hm : m1.Perm m2) (x y : Nat) :
    stepRel (sameHashEdges m1) x y ↔ stepRel (sameHashEdges m2) x y := by
  unfold sameHashEdges
  rw [stepRel_flatCat, stepRel_flatCat]
  constructor
  · rintro ⟨p, hp, hpc⟩
    exact ⟨p, hm.mem_iff.mp hp, hpc⟩
  · rintro ⟨p, hp, hpc⟩
    exact ⟨p, hm.mem_iff.mpr hp, hpc⟩

theorem appearsIn_sameHashEdges_perm {m1 m2 : Snapshot} (hm : m1.Perm m2) (x : Nat) :
    appearsIn (sameHashEdges m1) x ↔ appearsIn (sameHashEdges m2) x := by
  unfold sameHashEdges
  rw [appearsIn_flatCat, appearsIn_flatCat]
  constructor
  · rintro ⟨p, hp, hpr⟩
    exact ⟨p, hm.mem_iff.mp hp, hpr⟩
  · rintro ⟨p, hp, hpr⟩
    exact ⟨p, hm.mem_iff.mpr hp, hpr⟩

theorem stepRel_textEdges_perm {m1 m2 : Snapshot} (hm : m1.Perm m2) (x y : Nat) :
    stepRel (textEdges m1) x y ↔ stepRel (textEdges m2) x y := by
  unfold textEdges textQueryEdges
  rw [stepRel_append, stepRel_append]
  exact or_congr (stepRel_sameHashEdges_perm hm x y)
    (stepRel_queryEdges_perm hm (textFound m1) (textFound m2) (perm_textFound hm) x y)

theorem appearsIn_textEdges_perm {m1 m2 : Snapshot} (hm : m1.Perm m2) (x : Nat) :
    appearsIn (textEdges m1) x ↔ appearsIn (textEdges m2) x := by
  unfold textEdges textQueryEdges
  rw [appearsIn_append, appearsIn_append]
  exact or_congr (appearsIn_sameHashEdges_perm hm x)
    (appearsIn_queryEdges_perm hm (textFound m1) (textFound m2) (perm_textFound hm) x)

theorem stepRel_imageEdges_perm {m1 m2 : Snapshot} (hm : m1.Perm m2) (x y : Nat) :
    stepRel (imageEdges m1) x y ↔ stepRel (imageEdges m2) x y := by
  unfold imageEdges imageQueryEdges
  rw [stepRel_append, stepRel_append]
  exact or_congr (stepRel_sameHashEdges_perm hm x y)
    (stepRel_queryEdges_perm hm (imageFound m1) (imageFound m2) (perm_imageFound hm) x y)

theorem appearsIn_imageEdges_perm {m1 m2 : Snapshot} (hm : m1.Perm m2) (x : Nat) :
    appearsIn (imageEdges m1) x ↔ appearsIn (imageEdges m2) x := by
  unfold imageEdges imageQueryEdges
  rw [appearsIn_append, appearsIn_append]
  exact or_congr (appearsIn_sameHashEdges_perm hm x)
    (appearsIn_queryEdges_perm hm (imageFound m1) (imageFound m2) (perm_imageFound hm) x)

/-- Union-call edge lists with the same undirected edges and endpoints
yield the same output partition of the clustering run. -/
theorem partition_eq_of_edges_equiv (E1 E2 : List (Nat × Nat))
    (hstep : ∀ x y, stepRel E1 x y ↔ stepRel E2 x y)
    (happ : ∀ x, appearsIn E1 x ↔ appearsIn E2 x) :
    partitionOfAssignment (numberClusters (runUF E1)) =
      partitionOfAssignment (numberClusters (runUF E2)) := by
  rw [partitionOfAssignment_numberClusters _ (UFInv_runUF E1).1,
      partitionOfAssignment_numberClusters _ (UFInv_runUF E2).1]
  apply partitionSet_eq_of_sameComp (UFInv_runUF E1) (UFInv_runUF E2)
  intro x y
  rw [sameComp_runUF, sameComp_runUF]
  unfold connectedIn
  rw [happ x, happ y]
  have hr : Relation.ReflTransGen (stepRel E1) x y ↔
      Relation.ReflTransGen (stepRel E2) x y :=
    ⟨Relation.ReflTransGen.mono (fun a b => (hstep a b).mp),
     Relation.ReflTransGen.mono (fun a b => (hstep a b).mpr)⟩
  rw [hr]

/-- Claim C2: running the clustering on the same unchanged fingerprint
snapshots (the same sim-hash-to-archive-id-set maps, read in any order)
produces the same partition of archive ids into clusters as a set of
sets, for both the text pass and the image pass; cluster numbering may
differ but partition identity may not. -/
theorem clustering_partition_run_invariant (mt1 mt2 mi1 mi2 : Snapshot)
    (ht : mt1.Perm mt2) (hi : mi1.Perm mi2) :
    partitionOfAssignment ((update_ad_clusters mt1 mi1).text_cluster_records) =
      partitionOfAssignment ((update_ad_clusters mt2 mi2).text_cluster_records) ∧
    partitionOfAssignment ((update_ad_clusters mt1 mi1).image_cluster_records) =
      partitionOfAssignment ((update_ad_clusters mt2 mi2).image_cluster_records) := by
  constructor
  · exact partition_eq_of_edges_equiv (textEdges mt1) (textEdges mt2)
      (stepRel_textEdges_perm ht) (appearsIn_textEdges_perm ht)
  · exact partition_eq_of_edges_equiv (imageEdges mi1) (imageEdges mi2)
      (stepRel_imageEdges_perm hi) (appearsIn_imageEdges_perm hi)

/-- Witness for claim C2: the same two-fingerprint snapshot read in the
two possible orders yields equal text and image partitions. -/
theorem clustering_partition_run_invariant_witness :
    ([(0, [1, 2]), (9, [5])] : Snapshot).Perm [(9, [5]), (0, [1, 2])] ∧
      partitionOfAssignment
          ((update_ad_clusters [(0, [1, 2]), (9, [5])] [(0, [1, 2]), (9, [5])]).text_cluster_records) =
        partitionOfAssignment
          ((update_ad_clusters [(9, [5]), (0, [1, 2])] [(9, [5]), (0, [1, 2])]).text_cluster_records) := by
  have hperm : ([(0, [1, 2]), (9, [5])] : Snapshot).Perm [(9, [5]), (0, [1, 2])] :=
    List.Perm.swap _ _ _
  exact ⟨hperm,
    (clustering_partition_run_invariant _ _ _ _ hperm hperm).1⟩

/-- Claim C8: after computing and writing both the text and the image
cluster assignments, update_ad_clusters returns the name components,
which is not bound by any local, parameter, module or builtin name in
scope in that function, so every call that reaches the return statement
fails with a name-resolution error instead of returning the computed
clusters. -/
theorem update_ad_clusters_name_error (mt mi : Snapshot) :
    updateAdClustersResolvable ("components") = false ∧
    (update_ad_clusters mt mi).result =
      Except.error ("NameError: name components is not defined") ∧
    (update_ad_clusters mt mi).text_cluster_records =
      numberClusters (runUF (textEdges mt)) ∧
    (update_ad_clusters mt mi).image_cluster_records =
      numberClusters (runUF (imageEdges mi)) := by
  refine ⟨by decide, ?_, rfl, rfl⟩
  have h : updateAdClustersResolvable ("components") = false := by decide
  simp [update_ad_clusters, h]

/-- Counterexample for claim C7: a 64-hex hash yields fifteen, not
sixteen, 4-character directory levels, because the slice starts run only
up to len - 4 exclusive and the final full segment is dropped. -/
theorem video_path_sixteen_levels_cex :
    (videoPathDirs (String.mk (List.replicate 64 'a'))).length = 15 ∧
      (videoPathDirs (String.mk (List.replicate 64 'a'))).length ≠ 16 := by
  constructor
  · decide
  · decide

/-- Claim C7 (amended): for every 64-character video hash the bucket path
consists of the hash split into consecutive 4-character directory
segments with the final segment omitted even though the split is even,
i.e. fifteen levels hash[0:4] ... hash[56:60], followed by the file name
hash.mp4. -/
theorem video_path_fifteen_levels (h : String) (hlen : h.length = 64) :
    videoPathDirs h = (List.range 15).map (fun i => strSlice h (4 * i) (4 * i + 4)) ∧
      make_video_sha256_hash_file_path h =
        osPathJoin (videoPathDirs h ++ [h ++ ".mp4"]) := by
  refine ⟨?_, rfl⟩
  unfold videoPathDirs rangeStep VIDEO_HASH_PATH_DIR_NAME_LENGTH
  rw [hlen]
  norm_num
  have h1 : List.range' 0 15 4 = [0, 4, 8, 12, 16, 20, 24, 28, 32, 36, 40, 44, 48, 52, 56] := by
    decide
  have h2 : List.range 15 = [0, 1, 2, 3, 4, 5, 6, 7, 8, 9, 10, 11, 12, 13, 14] := by
    decide
  rw [h1, h2]
  simp only [List.map_cons, List.map_nil]

/-- Witness for claim C7 (amended) at a concrete 64-character hash. -/
theorem video_path_fifteen_levels_witness :
    (String.mk (List.replicate 64 'b')).length = 64 ∧
      videoPathDirs (String.mk (List.replicate 64 'b')) =
        (List.range 15).map
          (fun i => strSlice (String.mk (List.replicate 64 'b')) (4 * i) (4 * i + 4)) := by
  have hlen : (String.mk (List.replicate 64 'b')).length = 64 := by decide
  exact ⟨hlen, (video_path_fifteen_levels (String.mk (List.replicate 64 'b')) hlen).1⟩

theorem blobExists_append_self (store : BlobStore) (path data : String) :
    blobExists (store ++ [(path, data)]) path = true := by
  induction store with
  | nil => simp [blobExists]
  | cons q qs ih =>
    by_cases hq : q.1 = path
    · simp [blobExists, List.find?_cons, hq]
    · have hstep : blobExists ((q :: qs) ++ [(path, data)]) path =
          blobExists (qs ++ [(path, data)]) path := by
        simp [blobExists, List.find?_cons, hq]
      rw [hstep]
      exact ih

/-- Claim C9: the blob upload is idempotent on the store: when an object
already exists at the path it is not re-uploaded and its id is returned,
so two calls with the same path and bytes perform at most one actual
upload, return the id of the object at the path both times, and the
second call never changes the store. -/
theorem upload_blob_idempotent (store : BlobStore) (path data : String) :
    (upload_blob store path data).1 = path ∧
    (upload_blob (upload_blob store path data).2.1 path data).1 = path ∧
    (upload_blob (upload_blob store path data).2.1 path data).2.1 =
      (upload_blob store path data).2.1 ∧
    (upload_blob (upload_blob store path data).2.1 path data).2.2 = 0 ∧
    (upload_blob store path data).2.2 +
      (upload_blob (upload_blob store path data).2.1 path data).2.2 ≤ 1 ∧
    (upload_blob store path data).2.2 = if blobExists store path then 0 else 1 := by
  by_cases hex : blobExists store path
  · simp [upload_blob, hex]
  · simp [upload_blob, hex, blobExists_append_self]

/-- A refused download returns none and bumps the failure counter exactly
when the announced size is oversize. -/
theorem download_video_refused (env : HashEnv) (maxSize : Nat)
    (s : RetrieverStats) (resp : VideoResponse)
    (h : videoRefused maxSize resp) :
    download_video env maxSize s resp =
      (none, { s with num_video_download_failure := s.num_video_download_failure +
          (if isOversizeB maxSize resp then 1 else 0) }) := by
  obtain ⟨hexc, hcl⟩ := h
  rcases hcl with hcl | hcl | ⟨n, hcl, hn⟩
  · simp [download_video, hexc, hcl, isOversizeB]
  · simp [download_video, hexc, hcl, isOversizeB]
  · simp [download_video, hexc, hcl, isOversizeB, hn]

/-- Claim C10: when the video response lacks a content-length header or
its value is unparseable, download_video returns none and leaves every
counter (in particular both video counters) unchanged; the failure
counter is incremented exactly when the request raised or the parsed
length is oversize. -/
theorem download_video_counter_frame (env : HashEnv) (maxSize : Nat)
    (st : RetrieverStats) (resp : VideoResponse) :
    ((resp.exc = false ∧ resp.contentLength = none) →
      download_video env maxSize st resp = (none, st)) ∧
    ((resp.exc = false ∧ resp.contentLength = some none) →
      download_video env maxSize st resp = (none, st)) ∧
    (download_video env maxSize st resp).2.num_video_download_failure =
      st.num_video_download_failure +
        (if resp.exc || isOversizeB maxSize resp then 1 else 0) := by
  obtain ⟨exc, cl, body⟩ := resp
  cases exc
  · rcases cl with _ | cl2
    · simp [download_video, isOversizeB]
    · rcases cl2 with _ | n
      · simp [download_video, isOversizeB]
      · by_cases hn : maxSize < n
        · simp [download_video, isOversizeB, hn]
        · simp [download_video, isOversizeB, hn]
  · simp [download_video, isOversizeB]

/-- Witness for claim C10: a header-less response is refused with no
counter change. -/
theorem download_video_counter_frame_witness :
    (({ exc := false, contentLength := none, body := "v" } : VideoResponse).exc = false ∧
      ({ exc := false, contentLength := none, body := "v" } : VideoResponse).contentLength = none) ∧
      download_video trivialEnv 512000000 zeroStats
        { exc := false, contentLength := none, body := "v" } = (none, zeroStats) := by
  refine ⟨⟨rfl, rfl⟩, ?_⟩
  exact (download_video_counter_frame trivialEnv 512000000 zeroStats
    { exc := false, contentLength := none, body := "v" }).1 ⟨rfl, rfl⟩

/-- Claim C6: for a creative with a video url whose response has no
content-length header, an unparseable value, or an oversize value, the
video is skipped (video_sha256_hash and video_bucket_path are null in the
emitted record) while the rest of the creative, including the image
fields, is kept, and in the oversize case num_video_download_failure is
incremented by exactly one. -/
theorem video_refusal_keeps_creative (env : HashEnv) (maxSize : Nat)
    (vresp : String → VideoResponse) (aid : Nat) (st : RetrieverStats)
    (c : Creative) (url : String) (img : CreativeImage) (dh : String)
    (hvu : c.video_url = some url)
    (href : videoRefused maxSize (vresp url))
    (himg : c.image = some img)
    (hdh : env.imageDhash img.binary_data = some dh) :
    ∃ rec st2 seen2,
      processCreatives env maxSize vresp aid [c] st [] = ([rec], st2, seen2) ∧
      rec.video_sha256_hash = none ∧
      rec.video_bucket_path = none ∧
      rec.video_downloaded_url = some url ∧
      rec.image_sha256_hash = some (env.sha256 img.binary_data) ∧
      rec.image_bucket_path = some (make_image_hash_file_path dh) ∧
      rec.image_sim_hash = some dh ∧
      rec.image_downloaded_url = some img.url ∧
      rec.ad_creative_body = c.body ∧
      rec.archive_id = aid ∧
      st2.num_video_download_failure =
        st.num_video_download_failure +
          (if isOversizeB maxSize (vresp url) then 1 else 0) := by
  have hdl : ∀ s, download_video env maxSize s (vresp url) =
      (none, { s with num_video_download_failure := s.num_video_download_failure +
          (if isOversizeB maxSize (vresp url) then 1 else 0) }) :=
    fun s => download_video_refused env maxSize s (vresp url) href
  simp only [processCreatives, creativeStep, himg, hdh, creativeTail, hvu, hdl,
    Option.map_none, List.not_mem_nil, if_false, ite_false]
  exact ⟨_, _, _, rfl, rfl, rfl, rfl, rfl, rfl, rfl, rfl, rfl, rfl, rfl⟩

/-- Witness for claim C6: a creative with an oversize video response
keeps its image fields and drops only the video fields, with one video
download failure counted. -/
theorem video_refusal_keeps_creative_witness :
    videoRefused 512000000 (oversizeVresp "u") ∧
      ∃ rec st2 seen2,
        processCreatives trivialEnv 512000000 oversizeVresp 7
            [{ body := some "t", image := some { url := "iu", binary_data := "ib" },
               video_url := some "u", link_attributes := none }] zeroStats [] =
          ([rec], st2, seen2) ∧
        rec.video_sha256_hash = none ∧
        rec.video_bucket_path = none ∧
        rec.video_downloaded_url = some "u" ∧
        rec.image_sha256_hash = some (trivialEnv.sha256 "ib") ∧
        rec.image_bucket_path = some (make_image_hash_file_path "ib") ∧
        rec.image_sim_hash = some "ib" ∧
        rec.image_downloaded_url = some "iu" ∧
        rec.ad_creative_body = some "t" ∧
        rec.archive_id = 7 ∧
        st2.num_video_download_failure =
          zeroStats.num_video_download_failure +
            (if isOversizeB 512000000 (oversizeVresp "u") then 1 else 0) := by
  have href : videoRefused 512000000 (oversizeVresp "u") :=
    ⟨rfl, Or.inr (Or.inr ⟨10000000000, rfl, by norm_num⟩)⟩
  refine ⟨href, ?_⟩
  exact video_refusal_keeps_creative trivialEnv 512000000 oversizeVresp 7 zeroStats
    { body := some "t", image := some { url := "iu", binary_data := "ib" },
      video_url := some "u", link_attributes := none }
    "u" { url := "iu", binary_data := "ib" } "ib" rfl href rfl rfl

theorem process_archive_ids_cons (env : HashEnv) (maxSize : Nat)
    (vresp : String → VideoResponse) (t aid : Nat) (o : RetrieveOutcome)
    (rest : List (Nat × RetrieveOutcome)) (st : RetrieverStats) :
    ∃ st', (process_archive_ids env maxSize vresp t ((aid, o) :: rest) st).1 =
      (retrieve_ad t aid o st).2.1 ::
        (process_archive_ids env maxSize vresp t rest st').1 := by
  cases o with
  | ok sac =>
    obtain ⟨ss, cs⟩ := sac
    cases cs with
    | nil => exact ⟨_, rfl⟩
    | cons c cs => exact ⟨_, rfl⟩
  | requestException => exact ⟨_, rfl⟩
  | noContentFound => exact ⟨_, rfl⟩
  | ageRestriction => exact ⟨_, rfl⟩
  | intellectualPropertyViolation => exact ⟨_, rfl⟩
  | invalidId => exact ⟨_, rfl⟩
  | permanentlyUnavailable => exact ⟨_, rfl⟩

/-- Claim C3 (amended): process_archive_ids emits exactly one snapshot
metadata record per archive id processed, in order, even when the fetch
fails; the record carries a terminal (non-UNKNOWN) status for every
outcome except a requests exception, for which the status remains
UNKNOWN. -/
theorem process_archive_ids_metadata_amended (env : HashEnv) (maxSize : Nat)
    (vresp : String → VideoResponse) (t : Nat)
    (inputs : List (Nat × RetrieveOutcome)) (st : RetrieverStats) :
    ((process_archive_ids env maxSize vresp t inputs st).1.map
        (fun r => r.archive_id)) = inputs.map (fun p => p.1) ∧
    ∀ k r p,
      (process_archive_ids env maxSize vresp t inputs st).1.get? k = some r →
      inputs.get? k = some p →
      (r.snapshot_fetch_status = SnapshotFetchStatus.unknown ↔
        p.2 = RetrieveOutcome.requestException) := by
  induction inputs generalizing st with
  | nil =>
    refine ⟨rfl, ?_⟩
    intro k r p h1 h2
    simp [process_archive_ids] at h1
  | cons q rest ih =>
    obtain ⟨aid, o⟩ := q
    obtain ⟨st', heq⟩ := process_archive_ids_cons env maxSize vresp t aid o rest st
    constructor
    · rw [heq]
      simp only [List.map_cons]
      rw [show (retrieve_ad t aid o st).2.1.archive_id = aid from rfl]
      rw [(ih st').1]
    · intro k r p h1 h2
      rw [heq] at h1
      match k with
      | 0 =>
        simp only [List.get?_cons_zero, Option.some.injEq] at h1 h2
        subst h1
        subst h2
        cases o with
        | ok sac =>
          by_cases hemp : sac.creatives.isEmpty <;> simp [retrieve_ad, hemp]
        | requestException => simp [retrieve_ad]
        | noContentFound => simp [retrieve_ad]
        | ageRestriction => simp [retrieve_ad]
        | intellectualPropertyViolation => simp [retrieve_ad]
        | invalidId => simp [retrieve_ad]
        | permanentlyUnavailable => simp [retrieve_ad]
      | k + 1 =>
        simp only [List.get?_cons_succ] at h1 h2
        exact (ih st').2 k r p h1 h2

/-- Counterexample for claim C3: an archive id whose fetch fails with a
requests exception still gets exactly one metadata record, but that
record carries the numeric status 0 (UNKNOWN), not a terminal non-zero
status. -/
theorem request_exception_metadata_unknown_cex :
    ((process_archive_ids trivialEnv 512000000 oversizeVresp 0
        [(7, RetrieveOutcome.requestException)] zeroStats).1.map
          (fun r => (r.archive_id, r.snapshot_fetch_status.toNat))) = [(7, 0)] := rfl

/-- Witness for claim C3 (amended): a no-content outcome yields one
record with a terminal status. -/
theorem process_archive_ids_metadata_amended_witness :
    ((process_archive_ids trivialEnv 512000000 oversizeVresp 0
        [(3, RetrieveOutcome.noContentFound)] zeroStats).1.map
          (fun r => r.archive_id)) = [3] ∧
      (({ archive_id := 3, snapshot_fetch_time := 0,
          snapshot_fetch_status := SnapshotFetchStatus.noContentFound } :
            AdSnapshotMetadataRecord).snapshot_fetch_status =
          SnapshotFetchStatus.unknown ↔
        (3, RetrieveOutcome.noContentFound).2 = RetrieveOutcome.requestException) := by
  constructor
  · exact (process_archive_ids_metadata_amended trivialEnv 512000000 oversizeVresp 0
      [(3, RetrieveOutcome.noContentFound)] zeroStats).1
  · exact (process_archive_ids_metadata_amended trivialEnv 512000000 oversizeVresp 0
      [(3, RetrieveOutcome.noContentFound)] zeroStats).2 0 _ _ rfl rfl

theorem runChunksEvents_processed (chunks : List ChunkOutcome) :
    ∀ e ∈ (runChunksEvents chunks).1, e = BatchEvent.processedChunk := by
  induction chunks with
  | nil => intro e he; simp [runChunksEvents] at he
  | cons c rest ih =>
    cases c with
    | ok =>
      intro e he
      simp only [runChunksEvents, List.mem_cons] at he
      rcases he with rfl | he
      · rfl
      · exact ih e he
    | rateLimit s => intro e he; simp [runChunksEvents] at he
    | fatal => intro e he; simp [runChunksEvents] at he

/-- Claim C4: when the extractor raises a rate-limit signal during batch
processing, the pipeline releases the current batch (which is never
marked completed on this path), publishes an operator alert, sleeps the
suggested interval with a default of TOO_MANY_REQUESTS_SLEEP_TIME
(4 hours) when the error carries none, and then resumes the lease loop. -/
theorem rate_limit_release_alert_sleep (b : Nat) (chunks : List ChunkOutcome)
    (s : Option Nat)
    (h : (runChunksEvents chunks).2 = some (ChunkOutcome.rateLimit s)) :
    BatchEvent.releasedBatch b ∈ (batchIteration b chunks).1 ∧
    BatchEvent.slackAlert ∈ (batchIteration b chunks).1 ∧
    BatchEvent.slept (s.getD TOO_MANY_REQUESTS_SLEEP_TIME) ∈ (batchIteration b chunks).1 ∧
    BatchEvent.completedBatch b ∉ (batchIteration b chunks).1 ∧
    (batchIteration b chunks).2 = true := by
  have hpre := runChunksEvents_processed chunks
  simp only [batchIteration, h]
  refine ⟨?_, ?_, ?_, ?_, trivial⟩
  · exact List.mem_append.mpr (Or.inr (by simp))
  · exact List.mem_append.mpr (Or.inr (by simp))
  · exact List.mem_append.mpr (Or.inr (by simp))
  · intro hmem
    rcases List.mem_append.mp hmem with hmem | hmem
    · have := hpre _ hmem
      simp at this
    · simp at hmem

/-- Witness for claim C4: a batch whose second chunk hits a rate limit
with no suggested wait is released, alerted, slept for the 4-hour
default, not completed, and the loop resumes. -/
theorem rate_limit_release_alert_sleep_witness :
    (runChunksEvents [ChunkOutcome.ok, ChunkOutcome.rateLimit none]).2 =
      some (ChunkOutcome.rateLimit none) ∧
    BatchEvent.releasedBatch 2 ∈
      (batchIteration 2 [ChunkOutcome.ok, ChunkOutcome.rateLimit none]).1 ∧
    BatchEvent.slept ((none : Option Nat).getD TOO_MANY_REQUESTS_SLEEP_TIME) ∈
      (batchIteration 2 [ChunkOutcome.ok, ChunkOutcome.rateLimit none]).1 ∧
    BatchEvent.completedBatch 2 ∉
      (batchIteration 2 [ChunkOutcome.ok, ChunkOutcome.rateLimit none]).1 := by
  have h := rate_limit_release_alert_sleep 2 [ChunkOutcome.ok, ChunkOutcome.rateLimit none]
    none rfl
  exact ⟨rfl, h.1, h.2.2.1, h.2.2.2.1⟩

theorem download_video_fst_indep (env : HashEnv) (maxSize : Nat)
    (st1 st2 : RetrieverStats) (resp : VideoResponse) :
    (download_video env maxSize st1 resp).1 = (download_video env maxSize st2 resp).1 := by
  obtain ⟨exc, cl, body⟩ := resp
  cases exc
  · rcases cl with _ | cl2
    · simp [download_video]
    · rcases cl2 with _ | n
      · simp [download_video]
      · by_cases hn : maxSize < n <;> simp [download_video, hn]
  · simp [download_video]

theorem creativeTail_stats_indep (env : HashEnv) (maxSize : Nat)
    (vresp : String → VideoResponse) (aid : Nat) (c : Creative)
    (iu isha ibp idh : Option String) (st1 st2 : RetrieverStats)
    (seen : List UniqueAttrs) :
    (creativeTail env maxSize vresp aid c iu isha ibp idh st1 seen).1 =
      (creativeTail env maxSize vresp aid c iu isha ibp idh st2 seen).1 ∧
    (creativeTail env maxSize vresp aid c iu isha ibp idh st1 seen).2.2 =
      (creativeTail env maxSize vresp aid c iu isha ibp idh st2 seen).2.2 := by
  simp only [creativeTail]
  rcases hvu : c.video_url with _ | url
  · constructor <;> (split <;> rfl)
  · rw [download_video_fst_indep env maxSize st1 st2 (vresp url)]
    constructor <;> (split <;> rfl)

theorem creativeStep_stats_indep (env : HashEnv) (maxSize : Nat)
    (vresp : String → VideoResponse) (aid : Nat) (c : Creative)
    (st1 st2 : RetrieverStats) (seen : List UniqueAttrs) :
    (creativeStep env maxSize vresp aid c st1 seen).1 =
      (creativeStep env maxSize vresp aid c st2 seen).1 ∧
    (creativeStep env maxSize vresp aid c st1 seen).2.2 =
      (creativeStep env maxSize vresp aid c st2 seen).2.2 := by
  rcases himg : c.image with _ | img
  · simp only [creativeStep, himg]
    exact creativeTail_stats_indep env maxSize vresp aid c _ _ _ _ st1 st2 seen
  · rcases hdh : env.imageDhash img.binary_data with _ | dh
    · simp [creativeStep, himg, hdh]
    · simp only [creativeStep, himg, hdh]
      exact creativeTail_stats_indep env maxSize vresp aid c _ _ _ _ _ _ seen

theorem processCreatives_stats_indep (env : HashEnv) (maxSize : Nat)
    (vresp : String → VideoResponse) (aid : Nat) :
    ∀ (cs : List Creative) (st1 st2 : RetrieverStats) (seen : List UniqueAttrs),
      (processCreatives env maxSize vresp aid cs st1 seen).1 =
        (processCreatives env maxSize vresp aid cs st2 seen).1 ∧
      (processCreatives env maxSize vresp aid cs st1 seen).2.2 =
        (processCreatives env maxSize vresp aid cs st2 seen).2.2 := by
  intro cs
  induction cs with
  | nil => intro st1 st2 seen; exact ⟨rfl, rfl⟩
  | cons c rest ih =>
    intro st1 st2 seen
    obtain ⟨hfst, hseen⟩ := creativeStep_stats_indep env maxSize vresp aid c st1 st2 seen
    rcases h1 : creativeStep env maxSize vresp aid c st1 seen with ⟨o1, st1', seen1'⟩
    rcases h2 : creativeStep env maxSize vresp aid c st2 seen with ⟨o2, st2', seen2'⟩
    rw [h1, h2] at hfst hseen
    simp only at hfst hseen
    subst hfst
    subst hseen
    cases o1 with
    | none =>
      simp only [processCreatives, h1, h2]
      exact ih st1' st2' seen1'
    | some rec =>
      simp only [processCreatives, h1, h2]
      obtain ⟨hr, hs⟩ := ih st1' st2' seen1'
      constructor
      · simp [hr]
      · simp [hs]

theorem creativeTail_spec (env : HashEnv) (maxSize : Nat)
    (vresp : String → VideoResponse) (aid : Nat) (c : Creative)
    (iu isha ibp idh : Option String) (st : RetrieverStats)
    (seen : List UniqueAttrs) :
    (∀ rec st' seen',
      creativeTail env maxSize vresp aid c iu isha ibp idh st seen =
        (some rec, st', seen') →
      seen' = seen ++ [recordUniqueAttrs rec] ∧
        recordUniqueAttrs rec ∉ seen ∧ rec.archive_id = aid) ∧
    (∀ st' seen',
      creativeTail env maxSize vresp aid c iu isha ibp idh st seen =
        (none, st', seen') →
      seen' = seen) := by
  simp only [creativeTail]
  split
  case isTrue hmem =>
    constructor
    · intro rec st' seen' heq
      simp at heq
    · intro st' seen' heq
      simp only [Prod.mk.injEq] at heq
      exact heq.2.2.symm
  case isFalse hmem =>
    constructor
    · intro rec st' seen' heq
      simp only [Prod.mk.injEq, Option.some.injEq] at heq
      obtain ⟨hrec, _, hseen⟩ := heq
      subst hrec
      subst hseen
      exact ⟨rfl, hmem, rfl⟩
    · intro st' seen' heq
      simp at heq

theorem creativeStep_spec (env : HashEnv) (maxSize : Nat)
    (vresp : String → VideoResponse) (aid : Nat) (c : Creative)
    (st : RetrieverStats) (seen : List UniqueAttrs) :
    (∀ rec st' seen',
      creativeStep env maxSize vresp aid c st seen = (some rec, st', seen') →
      seen' = seen ++ [recordUniqueAttrs rec] ∧
        recordUniqueAttrs rec ∉ seen ∧ rec.archive_id = aid) ∧
    (∀ st' seen',
      creativeStep env maxSize vresp aid c st seen = (none, st', seen') →
      seen' = seen) := by
  rcases himg : c.image with _ | img
  · simp only [creativeStep, himg]
    exact creativeTail_spec env maxSize vresp aid c _ _ _ _ st seen
  · rcases hdh : env.imageDhash img.binary_data with _ | dh
    · simp only [creativeStep, himg, hdh]
      constructor
      · intro rec st' seen' heq
        simp at heq
      · intro st' seen' heq
        simp only [Prod.mk.injEq] at heq
        exact heq.2.2.symm
    · simp only [creativeStep, himg, hdh]
      exact creativeTail_spec env maxSize vresp aid c _ _ _ _ _ seen

theorem processCreatives_tuples (env : HashEnv) (maxSize : Nat)
    (vresp : String → VideoResponse) (aid : Nat) :
    ∀ (cs : List Creative) (st : RetrieverStats) (seen : List UniqueAttrs),
      ((processCreatives env maxSize vresp aid cs st seen).1.map
        recordUniqueAttrs).Nodup ∧
      (∀ rec ∈ (processCreatives env maxSize vresp aid cs st seen).1,
        recordUniqueAttrs rec ∉ seen) ∧
      (∀ rec ∈ (processCreatives env maxSize vresp aid cs st seen).1,
        rec.archive_id = aid) := by
  intro cs
  induction cs with
  | nil =>
    intro st seen
    refine ⟨List.nodup_nil, ?_, ?_⟩ <;> intro rec hrec <;> simp [processCreatives] at hrec
  | cons c rest ih =>
    intro st seen
    rcases hstep : creativeStep env maxSize vresp aid c st seen with ⟨o, st', seen'⟩
    cases o with
    | none =>
      have hseen : seen' = seen :=
        (creativeStep_spec env maxSize vresp aid c st seen).2 st' seen' hstep
      simp only [processCreatives, hstep]
      rw [hseen]
      exact ih st' seen
    | some rec =>
      obtain ⟨hseen', hnotin, haid⟩ :=
        (creativeStep_spec env maxSize vresp aid c st seen).1 rec st' seen' hstep
      subst hseen'
      simp only [processCreatives, hstep]
      obtain ⟨ihnodup, ihnotin, ihaid⟩ :=
        ih st' (seen ++ [recordUniqueAttrs rec])
      refine ⟨?_, ?_, ?_⟩
      · simp only [List.map_cons, List.nodup_cons]
        refine ⟨?_, ihnodup⟩
        intro hmem
        rw [List.mem_map] at hmem
        obtain ⟨rec2, hrec2, hequ⟩ := hmem
        have := ihnotin rec2 hrec2
        rw [hequ] at this
        exact this (List.mem_append.mpr (Or.inr (List.mem_cons_self _ _)))
      · intro rec2 hrec2
        rcases List.mem_cons.mp hrec2 with rfl | hrec2
        · exact hnotin
        · intro hmem
          exact ihnotin rec2 hrec2 (List.mem_append.mpr (Or.inl hmem))
      · intro rec2 hrec2
        rcases List.mem_cons.mp hrec2 with rfl | hrec2
        · exact haid
        · exact ihaid rec2 hrec2

theorem process_archive_ids_records (env : HashEnv) (maxSize : Nat)
    (vresp : String → VideoResponse) (t : Nat) :
    ∀ (inputs : List (Nat × RetrieveOutcome)) (st : RetrieverStats),
      (process_archive_ids env maxSize vresp t inputs st).2.1 =
        flatCat (fun p => perIdCreativeRecords env maxSize vresp p) inputs := by
  intro inputs
  induction inputs with
  | nil => intro st; rfl
  | cons q rest ih =>
    intro st
    obtain ⟨aid, o⟩ := q
    cases o with
    | ok sac =>
      obtain ⟨ss, cs⟩ := sac
      cases cs with
      | nil =>
        obtain ⟨st', heq⟩ : ∃ st',
            (process_archive_ids env maxSize vresp t
              ((aid, RetrieveOutcome.ok ⟨ss, []⟩) :: rest) st).2.1 =
              (process_archive_ids env maxSize vresp t rest st').2.1 := ⟨_, rfl⟩
        rw [heq, ih st']
        simp [flatCat, perIdCreativeRecords, outcomeCreatives, processCreatives]
      | cons c cs =>
        obtain ⟨st1, st2, heq⟩ : ∃ st1 st2,
            (process_archive_ids env maxSize vresp t
              ((aid, RetrieveOutcome.ok ⟨ss, c :: cs⟩) :: rest) st).2.1 =
              (processCreatives env maxSize vresp aid (c :: cs) st1 []).1 ++
                (process_archive_ids env maxSize vresp t rest st2).2.1 :=
          ⟨_, _, rfl⟩
        rw [heq, ih st2,
          (processCreatives_stats_indep env maxSize vresp aid (c :: cs) st1
            zeroStats []).1]
        rfl
    | requestException =>
      obtain ⟨st', heq⟩ : ∃ st',
          (process_archive_ids env maxSize vresp t
            ((aid, RetrieveOutcome.requestException) :: rest) st).2.1 =
            (process_archive_ids env maxSize vresp t rest st').2.1 := ⟨_, rfl⟩
      rw [heq, ih st']
      rfl
    | noContentFound =>
      obtain ⟨st', heq⟩ : ∃ st',
          (process_archive_ids env maxSize vresp t
            ((aid, RetrieveOutcome.noContentFound) :: rest) st).2.1 =
            (process_archive_ids env maxSize vresp t rest st').2.1 := ⟨_, rfl⟩
      rw [heq, ih st']
      rfl
    | ageRestriction =>
      obtain ⟨st', heq⟩ : ∃ st',
          (process_archive_ids env maxSize vresp t
            ((aid, RetrieveOutcome.ageRestriction) :: rest) st).2.1 =
            (process_archive_ids env maxSize vresp t rest st').2.1 := ⟨_, rfl⟩
      rw [heq, ih st']
      rfl
    | intellectualPropertyViolation =>
      obtain ⟨st', heq⟩ : ∃ st',
          (process_archive_ids env maxSize vresp t
            ((aid, RetrieveOutcome.intellectualPropertyViolation) :: rest) st).2.1 =
            (process_archive_ids env maxSize vresp t rest st').2.1 := ⟨_, rfl⟩
      rw [heq, ih st']
      rfl
    | invalidId =>
      obtain ⟨st', heq⟩ : ∃ st',
          (process_archive_ids env maxSize vresp t
            ((aid, RetrieveOutcome.invalidId) :: rest) st).2.1 =
            (process_archive_ids env maxSize vresp t rest st').2.1 := ⟨_, rfl⟩
      rw [heq, ih st']
      rfl
    | permanentlyUnavailable =>
      obtain ⟨st', heq⟩ : ∃ st',
          (process_archive_ids env maxSize vresp t
            ((aid, RetrieveOutcome.permanentlyUnavailable) :: rest) st).2.1 =
            (process_archive_ids env maxSize vresp t rest st').2.1 := ⟨_, rfl⟩
      rw [heq, ih st']
      rfl

theorem flatCat_records_nodup (env : HashEnv) (maxSize : Nat)
    (vresp : String → VideoResponse) :
    ∀ inputs : List (Nat × RetrieveOutcome),
      (inputs.map (fun p => p.1)).Nodup →
      ((flatCat (fun p => perIdCreativeRecords env maxSize vresp p) inputs).map
        recordUniqueAttrs).Nodup := by
  intro inputs
  induction inputs with
  | nil => intro _; simp [flatCat]
  | cons q rest ih =>
    intro hids
    simp only [List.map_cons, List.nodup_cons] at hids
    obtain ⟨hq, hrest⟩ := hids
    simp only [flatCat, List.map_append]
    apply List.Nodup.append
    · exact (processCreatives_tuples env maxSize vresp q.1
        (outcomeCreatives q.2) zeroStats []).1
    · exact ih hrest
    · intro ua hua1 hua2
      rw [List.mem_map] at hua1 hua2
      obtain ⟨r1, hr1, rfl⟩ := hua1
      obtain ⟨r2, hr2, hequ⟩ := hua2
      have ha1 : r1.archive_id = q.1 :=
        (processCreatives_tuples env maxSize vresp q.1
          (outcomeCreatives q.2) zeroStats []).2.2 r1 hr1
      obtain ⟨p, hp, hr2p⟩ := (mem_flatCat _ rest r2).mp hr2
      have ha2 : r2.archive_id = p.1 :=
        (processCreatives_tuples env maxSize vresp p.1
          (outcomeCreatives p.2) zeroStats []).2.2 r2 hr2p
      have haeq : r2.archive_id = r1.archive_id :=
        congrArg UniqueAttrs.archive_id hequ
      apply hq
      rw [List.mem_map]
      exact ⟨p, hp, by rw [← ha2, haeq, ha1]⟩

/-- Claim C5: for a chunk whose archive ids are pairwise distinct, the
creative record list emitted for upsert contains no two records with the
same (archive_id, text_sha256, image_sha256, video_sha256) tuple, and the
emitted list is exactly the concatenation of what each archive id
contributes on its own: identical hash triples under two different
archive ids both survive, while a duplicated constraint tuple within one
archive id is emitted only once. -/
theorem chunk_records_unique_constraint (env : HashEnv) (maxSize : Nat)
    (vresp : String → VideoResponse) (t : Nat)
    (inputs : List (Nat × RetrieveOutcome)) (st : RetrieverStats)
    (hids : (inputs.map (fun p => p.1)).Nodup) :
    (((process_archive_ids env maxSize vresp t inputs st).2.1).map
      recordUniqueAttrs).Nodup ∧
    (process_archive_ids env maxSize vresp t inputs st).2.1 =
      flatCat (fun p => perIdCreativeRecords env maxSize vresp p) inputs := by
  refine ⟨?_, process_archive_ids_records env maxSize vresp t inputs st⟩
  rw [process_archive_ids_records env maxSize vresp t inputs st]
  exact flatCat_records_nodup env maxSize vresp inputs hids

/-- Witness for claim C5: archive id 1 contributes two identical
creatives and archive id 2 one creative with the same hash triple; the
emitted chunk list has pairwise distinct constraint tuples. -/
theorem chunk_records_unique_constraint_witness :
    (([(1, RetrieveOutcome.ok { screenshot_binary_data := none, creatives := [{ body := some "t", image := none, video_url := none, link_attributes := none }, { body := some "t", image := none, video_url := none, link_attributes := none }] }),
       (2, RetrieveOutcome.ok { screenshot_binary_data := none, creatives := [{ body := some "t", image := none, video_url := none, link_attributes := none }] })].map
        (fun p => p.1)).Nodup) ∧
    ((((process_archive_ids trivialEnv 512000000 oversizeVresp 0
      [(1, RetrieveOutcome.ok { screenshot_binary_data := none, creatives := [{ body := some "t", image := none, video_url := none, link_attributes := none }, { body := some "t", image := none, video_url := none, link_attributes := none }] }),
       (2, RetrieveOutcome.ok { screenshot_binary_data := none, creatives := [{ body := some "t", image := none, video_url := none, link_attributes := none }] })] zeroStats).2.1).map
        recordUniqueAttrs).Nodup) := by
  refine ⟨by decide, ?_⟩
  exact (chunk_records_unique_constraint trivialEnv 512000000 oversizeVresp 0
    _ zeroStats (by decide)).1
